import Mathlib

/-!
Verification development for the resume extraction core (resume_parser.py).

The Python source is shallowly embedded over `List Char` (Python strings are
sequences of code points).  Each `re` pattern used by the source is embedded as
a dedicated matcher that reproduces the leftmost-match / alternation-order /
greedy-with-backtracking semantics of CPython's `re` on that concrete pattern.
ASCII case conversion is used throughout, matching the ASCII inputs the
extractors are specified over.
-/

/-- Strings of the embedded program: Python strings as lists of code points. -/
abbrev Str := List Char

/-- Python whitespace (`str.isspace` and regex `\s` in unicode mode). -/
def pyIsSpace (c : Char) : Bool :=
  c = ' ' || c = '\t' || c = '\n' || c = '\r' || c = '\x0b' || c = '\x0c' ||
  c = '\x1c' || c = '\x1d' || c = '\x1e' || c = '\x1f' || c = '\u0085' ||
  c = '\u00a0' || c = '\u1680' || c = '\u2000' || c = '\u2001' || c = '\u2002' ||
  c = '\u2003' || c = '\u2004' || c = '\u2005' || c = '\u2006' || c = '\u2007' ||
  c = '\u2008' || c = '\u2009' || c = '\u200a' || c = '\u2028' || c = '\u2029' ||
  c = '\u202f' || c = '\u205f' || c = '\u3000'

/-- Line-break characters of Python `str.splitlines` (besides the `\r\n` pair,
which is handled as a unit). -/
def isLineBreak (c : Char) : Bool :=
  c = '\n' || c = '\r' || c = '\x0b' || c = '\x0c' ||
  c = '\x1c' || c = '\x1d' || c = '\x1e' || c = '\u0085' ||
  c = '\u2028' || c = '\u2029'

/-- ASCII uppercase letter, the regex class `[A-Z]`. -/
def isAsciiUpper (c : Char) : Bool := 'A' ≤ c && c ≤ 'Z'

/-- ASCII lowercase letter, the regex class `[a-z]`. -/
def isAsciiLower (c : Char) : Bool := 'a' ≤ c && c ≤ 'z'

/-- ASCII letter, the regex class `[A-Za-z]`. -/
def isAsciiAlpha (c : Char) : Bool := isAsciiUpper c || isAsciiLower c

/-- ASCII digit, the regex class `\d` on ASCII text. -/
def isAsciiDigit (c : Char) : Bool := '0' ≤ c && c ≤ '9'

/-- Regex word character `\w` (ASCII): letters, digits and underscore. -/
def isWordChar (c : Char) : Bool := isAsciiAlpha c || isAsciiDigit c || c = '_'

/-- Case-insensitive character equality (ASCII folding), for `re.I`. -/
def lowEq (a b : Char) : Bool := a.toLower = b.toLower

/-- Does the (lowercase) pattern `pat` match case-insensitively at the head of
`s`?  This is the literal-matching step of an `re.I` search. -/
def ciAt : Str → Str → Bool
  | [], _ => true
  | _ :: _, [] => false
  | p :: ps, c :: cs => lowEq p c && ciAt ps cs

/-- Does `s` contain a case-insensitive occurrence of `pat`?  Truth value of
`re.search(pat, s, re.I)` for a plain literal `pat`. -/
def ciSub (pat : Str) : Str → Bool
  | [] => ciAt pat []
  | s@(_ :: rest) => ciAt pat s || ciSub pat rest

/-- Does `s` contain a case-insensitive occurrence of one of the literals? -/
def ciSubAny (pats : List Str) (s : Str) : Bool := pats.any (fun p => ciSub p s)

/-- Accumulator worker for `pySplitlines`. -/
def slAux (cur : Str) : Str → List Str
  | [] => if cur.isEmpty then [] else [cur.reverse]
  | '\r' :: '\n' :: rest => cur.reverse :: slAux [] rest
  | c :: rest =>
    if isLineBreak c then cur.reverse :: slAux [] rest else slAux (c :: cur) rest

/-- Python `str.splitlines()`. -/
def pySplitlines (s : Str) : List Str := slAux [] s

/-- Python `str.strip(chars)`: remove the characters of `cs` from both ends. -/
def pyStripChars (cs : List Char) (s : Str) : Str :=
  ((s.dropWhile (fun c => c ∈ cs)).reverse.dropWhile (fun c => c ∈ cs)).reverse

/-- Python `str.strip()`: remove whitespace from both ends. -/
def pyStripWs (s : Str) : Str :=
  ((s.dropWhile pyIsSpace).reverse.dropWhile pyIsSpace).reverse

/-- Accumulator worker for `wsWords`. -/
def wsWordsAux (cur : Str) : Str → List Str
  | [] => if cur.isEmpty then [] else [cur.reverse]
  | c :: rest =>
    if pyIsSpace c then
      if cur.isEmpty then wsWordsAux [] rest else cur.reverse :: wsWordsAux [] rest
    else wsWordsAux (c :: cur) rest

/-- Python `str.split()` with no argument: split on whitespace runs, no empty
words. -/
def wsWords (s : Str) : List Str := wsWordsAux [] s

/-- Python `" ".join(xs)`. -/
def joinSpace (xs : List Str) : Str :=
  match xs with
  | [] => []
  | x :: rest => x ++ (rest.map (fun y => ' ' :: y)).flatten

/-- Split on every occurrence of a single character from `seps`
(`re.split` with a one-character class such as `[,;/•\-|]`). -/
def splitChars (seps : List Char) : Str → List Str
  | [] => [[]]
  | c :: rest =>
    if c ∈ seps then [] :: splitChars seps rest
    else
      match splitChars seps rest with
      | [] => [[c]]
      | p :: ps => (c :: p) :: ps

/-- Python truthiness of an optional string: present and non-empty. -/
def optTruthy : Option Str → Bool
  | some s => !s.isEmpty
  | none => false

/-- First successful application of `f` over a list (the embedding of ordered
alternation and first-match loops). -/
def firstSome (f : α → Option β) : List α → Option β
  | [] => none
  | a :: l =>
    match f a with
    | some b => some b
    | none => firstSome f l

/-! ## Section-block search

All section extractors use a regex of the shape
`(H1|H2|...).*?(?=(?:\n(?:T1|T2|...|$)))` with `re.S | re.I`: the earliest
case-insensitive occurrence of a header synonym, followed non-greedily by
anything up to a lookahead position holding a newline followed by a terminator
synonym or the `$` of the (non-MULTILINE) pattern. -/

/-- Does the lookahead `(?=\n(?:T1|...|$))` hold at the start of suffix `s`?
Without `re.M`, `$` matches at the end of the string or just before a final
newline. -/
def lookTermAt (terms : List Str) (s : Str) : Bool :=
  match s with
  | '\n' :: r => r.isEmpty || r = ['\n'] || terms.any (fun t => ciAt t r)
  | _ => false

/-- Length of the shortest `.*?` continuation after the header such that the
terminator lookahead holds, scanning the given suffix. -/
def findStop (terms : List Str) : Str → Option Nat
  | [] => none
  | s@(_ :: rest) =>
    if lookTermAt terms s then some 0
    else (findStop terms rest).map (· + 1)

/-- Try to complete a section match at suffix `u`: the header synonyms are
tried in pattern order; for the first that matches, the shortest admissible
stop is taken.  Returns `group(0)` of the match. -/
def trySectionAt (syns terms : List Str) (u : Str) : Option Str :=
  firstSome (fun syn =>
    if ciAt syn u then
      (findStop terms (u.drop syn.length)).map (fun k => u.take (syn.length + k))
    else none) syns

/-- Leftmost section match: `re.search` over the suffixes of `t`. -/
def sectionSearchAux (syns terms : List Str) : Str → Option Str
  | [] => none
  | u@(_ :: rest) =>
    match trySectionAt syns terms u with
    | some b => some b
    | none => sectionSearchAux syns terms rest

/-- Full embedding of `pattern.search(text)` for the section regexes; yields
the matched block (`match.group(0)`) when a match exists. -/
def sectionSearch (syns terms : List Str) (t : Str) : Option Str :=
  sectionSearchAux syns terms t

/-! ## Generic regex scanning

Matchers take the previous character (for `\b`) and the current suffix.  A
`search` takes the first position where the matcher succeeds; a `findall`
continues after the consumed span (all embedded patterns consume at least one
character, so a fuel of `length + 1` never runs out). -/

/-- Leftmost-match search: try the matcher at every position, left to right. -/
def reSearch (f : Option Char → Str → Option α) : Option Char → Str → Option α
  | prev, [] => f prev []
  | prev, s@(c :: rest) =>
    match f prev s with
    | some a => some a
    | none => reSearch f (some c) rest

/-- Worker for `reFindAll`: non-overlapping leftmost matches, resuming after
each consumed span. -/
def reFindAllAux (f : Option Char → Str → Option (α × Nat)) :
    Nat → Option Char → Str → List α
  | 0, _, _ => []
  | _ + 1, prev, [] =>
    match f prev [] with
    | some (a, _) => [a]
    | none => []
  | fuel + 1, prev, s@(c :: rest) =>
    match f prev s with
    | some (a, n) =>
      a :: reFindAllAux f fuel ((s.take n).getLast?.orElse (fun _ => prev)) (s.drop n)
    | none => reFindAllAux f fuel (some c) rest

/-- Embedding of `re.findall` for the concrete patterns used by the source. -/
def reFindAll (f : Option Char → Str → Option (α × Nat)) (s : Str) : List α :=
  reFindAllAux f (s.length + 1) none s

/-- Worker for `reSubAll`. -/
def reSubAllAux (f : Option Char → Str → Option Nat) : Nat → Option Char → Str → Str
  | 0, _, s => s
  | _ + 1, _, [] => []
  | fuel + 1, prev, s@(c :: rest) =>
    match f prev s with
    | some n => reSubAllAux f fuel ((s.take n).getLast?.orElse (fun _ => prev)) (s.drop n)
    | none => c :: reSubAllAux f fuel (some c) rest

/-- Embedding of `re.sub(pattern, "", s)`: delete every non-overlapping
leftmost match. -/
def reSubAll (f : Option Char → Str → Option Nat) (s : Str) : Str :=
  reSubAllAux f (s.length + 1) none s

/-- Is the head of `s` missing or a non-word character? -/
def noWordAt : Str → Bool
  | c :: _ => !isWordChar c
  | [] => true

/-- The regex `\b` between a previous character and the head of `s` (string
edges count as non-word). -/
def wordB (prev : Option Char) (s : Str) : Bool :=
  let l := match prev with | some p => isWordChar p | none => false
  let r := match s with | c :: _ => isWordChar c | [] => false
  l != r

/-! ## CGPA / GPA patterns -/

/-- The class `[:\s-]` of the CGPA pattern. -/
def gpaSepChar (c : Char) : Bool := c = ':' || c = '-' || pyIsSpace c

/-- Number part `[0-9](?:\.\d+)?(?:/[0-9]+)?` of the CGPA pattern; returns the
captured text together with its length. -/
def cgpaNumAt (s : Str) : Option (Str × Nat) :=
  match s with
  | d :: rest =>
    if isAsciiDigit d then
      let frac :=
        match rest with
        | '.' :: r2 =>
          let ds := r2.takeWhile isAsciiDigit
          if ds.isEmpty then ([] : Str) else '.' :: ds
        | _ => []
      let afterFrac := rest.drop frac.length
      let slashp :=
        match afterFrac with
        | '/' :: r3 =>
          let ds := r3.takeWhile isAsciiDigit
          if ds.isEmpty then ([] : Str) else '/' :: ds
        | _ => []
      let g := d :: (frac ++ slashp)
      some (g, g.length)
    else none
  | [] => none

/-- One keyword alternative of `\b(?:CGPA|GPA)\b[:\s-]*(num)`: keyword at the
head, `\b` after it, separator run, then the number.  Returns the captured
group together with the total consumed length. -/
def cgpaTryKw (kw : Str) (s : Str) : Option (Str × Nat) :=
  if ciAt kw s then
    let after := s.drop kw.length
    if noWordAt after then
      let run := after.takeWhile gpaSepChar
      match cgpaNumAt (after.drop run.length) with
      | some (g, n) => some (g, kw.length + run.length + n)
      | none => none
    else none
  else none

/-- Matcher for `\b(?:CGPA|GPA)\b[:\s-]*([0-9](?:\.\d+)?(?:/[0-9]+)?)` with
`re.I`: group 1 plus consumed length.  The two alternatives are tried in
pattern order; they cannot both start at one position. -/
def cgpaMatchAt (prev : Option Char) (s : Str) : Option (Str × Nat) :=
  if wordB prev s then
    match cgpaTryKw ("cgpa".toList) s with
    | some r => some r
    | none => cgpaTryKw ("gpa".toList) s
  else none

/-- Embedding of `re.search` for the CGPA pattern, returning `group(1)`. -/
def cgpaSearch (s : Str) : Option Str :=
  reSearch (fun p u => (cgpaMatchAt p u).map (fun r => r.1)) none s

/-- Embedding of the `re.sub` at the `extra`-stripping step: the same pattern
without the capture, all matches replaced by the empty string. -/
def cgpaSubAll (s : Str) : Str :=
  reSubAll (fun p u => (cgpaMatchAt p u).map (fun r => r.2)) s

/-- Matcher for the bare fallback `\b\d\.\d{1,2}\/\d{1,3}\b` (group 0). -/
def bareGpaAt (prev : Option Char) (s : Str) : Option Str :=
  if wordB prev s then
    match s with
    | d :: '.' :: rest =>
      if isAsciiDigit d then
        let r1 := rest.takeWhile isAsciiDigit
        if 1 ≤ r1.length ∧ r1.length ≤ 2 then
          match rest.drop r1.length with
          | '/' :: r2 =>
            let r2d := r2.takeWhile isAsciiDigit
            if 1 ≤ r2d.length ∧ r2d.length ≤ 3 ∧ noWordAt (r2.drop r2d.length) then
              some (d :: '.' :: (r1 ++ '/' :: r2d))
            else none
          | _ => none
        else none
      else none
    | _ => none
  else none

/-- Embedding of `re.search` for the bare `d.dd/ddd` fallback. -/
def bareGpaSearch (s : Str) : Option Str := reSearch bareGpaAt none s

/-- Group `(\d\.\d{1,2})` of the loose fallback, at the head of `s`. -/
def looseNumAt (s : Str) : Option Str :=
  match s with
  | d :: '.' :: rest =>
    if isAsciiDigit d then
      let ds := rest.takeWhile isAsciiDigit
      if ds.isEmpty then none else some (d :: '.' :: ds.take 2)
    else none
  | _ => none

/-- Minimal `.*?` scan (no `re.S`: it cannot cross a newline) up to the first
position where the loose number matches. -/
def looseScan : Str → Option Str
  | [] => none
  | s@(c :: rest) =>
    match looseNumAt s with
    | some g => some g
    | none => if c = '\n' then none else looseScan rest

/-- One keyword alternative of `\b(?:CGPA|GPA)\b.*?(\d\.\d{1,2})`. -/
def looseTryKw (kw : Str) (s : Str) : Option Str :=
  if ciAt kw s then
    let after := s.drop kw.length
    if noWordAt after then looseScan after else none
  else none

/-- Matcher for the loose `GPA…number` fallback pattern (group 1). -/
def looseGpaAt (prev : Option Char) (s : Str) : Option Str :=
  if wordB prev s then
    match looseTryKw ("cgpa".toList) s with
    | some r => some r
    | none => looseTryKw ("gpa".toList) s
  else none

/-- Embedding of `re.search` for the loose fallback. -/
def looseGpaSearch (s : Str) : Option Str := reSearch looseGpaAt none s

/-! ## Date tokens

The pattern `(\d{2}/\d{4}|\d{4}|\b(?:Jan|…|Dec)[a-z]*\s+\d{4})` with `re.I`;
its single group spans the whole match. -/

/-- Month-abbreviation literals in pattern order. -/
def monthLits : List Str :=
  ["jan", "feb", "mar", "apr", "may", "jun", "jul", "aug", "sep", "oct",
   "nov", "dec"].map String.toList

/-- First date alternative `\d{2}/\d{4}`. -/
def dateAlt1 (s : Str) : Option (Str × Nat) :=
  match s with
  | a :: b :: '/' :: rest =>
    if isAsciiDigit a ∧ isAsciiDigit b then
      let y := rest.take 4
      if y.length = 4 ∧ y.all isAsciiDigit then some (a :: b :: '/' :: y, 7) else none
    else none
  | _ => none

/-- Second date alternative `\d{4}`. -/
def dateAlt2 (s : Str) : Option (Str × Nat) :=
  let y := s.take 4
  if y.length = 4 ∧ y.all isAsciiDigit then some (y, 4) else none

/-- Third date alternative `\b(?:Jan|…)[a-z]*\s+\d{4}` (under `re.I` the class
`[a-z]*` also matches uppercase letters). -/
def dateAlt3 (prev : Option Char) (s : Str) : Option (Str × Nat) :=
  if wordB prev s then
    match monthLits.find? (fun kw => ciAt kw s) with
    | some _ =>
      let letters := (s.drop 3).takeWhile isAsciiAlpha
      let afterL := s.drop (3 + letters.length)
      let run := afterL.takeWhile pyIsSpace
      if run.isEmpty then none
      else
        let y := (afterL.drop run.length).take 4
        if y.length = 4 ∧ y.all isAsciiDigit then
          some (s.take (3 + letters.length) ++ run ++ y,
                3 + letters.length + run.length + 4)
        else none
    | none => none
  else none

/-- Matcher for one date token, alternatives in pattern order. -/
def dateMatchAt (prev : Option Char) (s : Str) : Option (Str × Nat) :=
  match dateAlt1 s with
  | some r => some r
  | none =>
    match dateAlt2 s with
    | some r => some r
    | none => dateAlt3 prev s

/-- Embedding of `re.findall` for the date pattern. -/
def dateFindAll (s : Str) : List Str := reFindAll dateMatchAt s

/-- Embedding of `re.search` for the projects date pattern
`(\d{2}/\d{4}|\d{4})` (group 0). -/
def projDateSearch (s : Str) : Option Str :=
  reSearch (fun _ u =>
    match dateAlt1 u with
    | some r => some r.1
    | none => (dateAlt2 u).map (fun r => r.1)) none s

/-! ## Experience-specific patterns -/

/-- The class `[A-Za-z&\.\s-]` of the company-after-at pattern. -/
def atClass (c : Char) : Bool :=
  isAsciiAlpha c || c = '&' || c = '.' || pyIsSpace c || c = '-'

/-- Matcher for `(?:at|@)\s+([A-Z][A-Za-z&\.\s-]{2,})` (case-sensitive);
returns group 1. -/
def atMatchAt (_prev : Option Char) (s : Str) : Option Str :=
  let mark : Option Nat :=
    match s with
    | 'a' :: 't' :: _ => some 2
    | '@' :: _ => some 1
    | _ => none
  match mark with
  | some n =>
    let after := s.drop n
    let run := after.takeWhile pyIsSpace
    if run.isEmpty then none
    else
      match after.drop run.length with
      | u :: rest2 =>
        if isAsciiUpper u then
          let tailRun := rest2.takeWhile atClass
          if tailRun.length ≥ 2 then some (u :: tailRun) else none
        else none
      | [] => none
  | none => none

/-- Embedding of `re.search` for the company-after-at pattern. -/
def atSearch (s : Str) : Option Str := reSearch atMatchAt none s

/-- The class `[a-zA-Z&\.\s]` of the capitalized-next-line check. -/
def capClass (c : Char) : Bool := isAsciiAlpha c || c = '&' || c = '.' || pyIsSpace c

/-- Truth value of `re.search(r"[A-Z][a-zA-Z&\.\s]{2,}", s)`. -/
def capSearch : Str → Bool
  | [] => false
  | c :: rest => (isAsciiUpper c && (rest.takeWhile capClass).length ≥ 2) || capSearch rest

/-- Does `s` contain an ASCII letter (`re.search(r"[A-Za-z]", s)`)? -/
def hasLetter (s : Str) : Bool := s.any isAsciiAlpha

/-- City/region literals of the location pattern, in pattern order. -/
def cityLits : List Str :=
  ["hyderabad", "bengaluru", "bangalore", "mumbai", "delhi", "chennai", "pune",
   "remote", "india", "united states", "usa"].map String.toList

/-- Matcher for the location pattern (`group(0)`: the text as it occurs). -/
def cityMatchAt (_prev : Option Char) (s : Str) : Option Str :=
  match cityLits.find? (fun kw => ciAt kw s) with
  | some kw => some (s.take kw.length)
  | none => none

/-- Embedding of `re.search` for the location pattern. -/
def citySearch (s : Str) : Option Str := reSearch cityMatchAt none s

/-- Greedy `\s*([^X…]+)` step used after a bullet marker: whitespace run, then
a non-empty capture of characters outside `excl`, with the backtracking CPython
performs when the run reaches the end of the text or a character of `excl`.
Returns the capture and the consumed length. -/
def greedyCapture (excl : List Char) (s : Str) : Option (Str × Nat) :=
  let run := s.takeWhile pyIsSpace
  let after := s.drop run.length
  let backtrack : Option (Str × Nat) :=
    match run.reverse.dropWhile (fun c => c ∈ excl) with
    | [] => none
    | x :: r => some ([x], (x :: r).length)
  match after with
  | c :: _ =>
    if c ∈ excl then backtrack
    else
      let cap := after.takeWhile (fun x => x ∉ excl)
      some (cap, run.length + cap.length)
  | [] => backtrack

/-- Matcher for `(?:•|-|\*|\d+\.)\s*([^\n]+)`: a bullet marker and its
captured text. -/
def respMatchAt (_prev : Option Char) (s : Str) : Option (Str × Nat) :=
  let mark : Option Nat :=
    match s with
    | '•' :: _ => some 1
    | '-' :: _ => some 1
    | '*' :: _ => some 1
    | _ =>
      let ds := s.takeWhile isAsciiDigit
      if ds.isEmpty then none
      else
        match s.drop ds.length with
        | '.' :: _ => some (ds.length + 1)
        | _ => none
  match mark with
  | some n => (greedyCapture ['\n'] (s.drop n)).map (fun r => (r.1, n + r.2))
  | none => none

/-- Embedding of `re.findall` for the responsibilities pattern. -/
def respFindAll (s : Str) : List Str := reFindAll respMatchAt s

/-! ## Skills patterns -/

/-- The class `[A-Za-z0-9+\#\.\s\-\_]` of the third skills-bullet
alternative. -/
def skillsLineClass (c : Char) : Bool :=
  isAsciiAlpha c || isAsciiDigit c || c = '+' || c = '#' || c = '.' ||
  pyIsSpace c || c = '-' || c = '_'

/-- Matcher for `•\s*([^•\n]+)|-\s*([^-\\n]+)|(?:\n)([A-Za-z0-9+\#\.\s\-\_]{2,})`.
In the source this pattern is a raw string, so `[^-\\n]` excludes the hyphen,
the backslash and the letter n — not the newline.  Returns the triple of
groups (non-participating groups are empty). -/
def skillsTupleAt (_prev : Option Char) (s : Str) : Option ((Str × Str × Str) × Nat) :=
  match s with
  | '•' :: rest =>
    (greedyCapture ['•', '\n'] rest).map (fun r => ((r.1, [], []), 1 + r.2))
  | '-' :: rest =>
    (greedyCapture ['-', '\\', 'n'] rest).map (fun r => (([], r.1, []), 1 + r.2))
  | '\n' :: rest =>
    let cap := rest.takeWhile skillsLineClass
    if cap.length ≥ 2 then some ((([], [], cap)), 1 + cap.length) else none
  | _ => none

/-- Embedding of `re.findall` for the skills bullet pattern. -/
def skillsTuples (s : Str) : List (Str × Str × Str) := reFindAll skillsTupleAt s

/-- Canonical skill vocabulary of the source (`SKILL_KEYWORDS`). -/
def SKILL_KEYWORDS : List Str :=
  ["python", "java", "c++", "c", "sql", "pandas", "numpy", "tensorflow",
   "pytorch", "react", "angular", "node", "html", "css", "javascript",
   "docker", "kubernetes", "ml", "machine learning", "deep learning", "nlp",
   "pandas", "matplotlib", "seaborn", "git", "aws", "gcp", "azure",
   "sql"].map String.toList

/-- Worker for `kwFound`: `\b<kw>\b` at some position of the suffix. -/
def kwFoundAux (kw : Str) : Option Char → Str → Bool
  | _, [] => false
  | prev, s@(c :: rest) =>
    (wordB prev s && ciAt kw s && wordB kw.getLast? (s.drop kw.length)) ||
    kwFoundAux kw (some c) rest

/-- Truth value of `re.search(r"\b" + re.escape(kw) + r"\b", text, re.I)`. -/
def kwFound (kw : Str) (s : Str) : Bool := kwFoundAux kw none s

/-! ## Email and phone patterns -/

/-- Local-part class `[a-zA-Z0-9.+_-]` of the email pattern. -/
def emailLocalClass (c : Char) : Bool :=
  isAsciiAlpha c || isAsciiDigit c || c = '.' || c = '+' || c = '_' || c = '-'

/-- Domain class `[a-zA-Z0-9._-]` of the email pattern. -/
def emailDomClass (c : Char) : Bool :=
  isAsciiAlpha c || isAsciiDigit c || c = '.' || c = '_' || c = '-'

/-- Backtracking split of the greedy domain run at the last dot that leaves a
TLD of at least 2 letters (`[a-zA-Z0-9._-]+\.[a-zA-Z]{2,}`). -/
def emailDomTry (domRun : Str) : Option Str :=
  firstSome (fun d =>
    if 1 ≤ d ∧ domRun[d]? = some '.' then
      let tld := (domRun.drop (d + 1)).takeWhile isAsciiAlpha
      if tld.length ≥ 2 then some (domRun.take d ++ '.' :: tld) else none
    else none) (List.range domRun.length).reverse

/-- Matcher for the email pattern (`group(0)`). -/
def emailMatchAt (_prev : Option Char) (s : Str) : Option Str :=
  let localRun := s.takeWhile emailLocalClass
  if localRun.isEmpty then none
  else
    match s.drop localRun.length with
    | '@' :: rest =>
      let domRun := rest.takeWhile emailDomClass
      match emailDomTry domRun with
      | some dom => some (localRun ++ '@' :: dom)
      | none => none
    | _ => none

/-- Embedding of `EMAIL_RE.search`. -/
def emailSearch (s : Str) : Option Str := reSearch emailMatchAt none s

/-- Separator class `[-.\s]` of the phone pattern. -/
def optSepChar (c : Char) : Bool := c = '-' || c = '.' || pyIsSpace c

/-- Consume exactly `n` ASCII digits. -/
def stepDigits (n : Nat) (s : Str) : Option Str :=
  let d := s.take n
  if d.length = n ∧ d.all isAsciiDigit then some (s.drop n) else none

/-- Consume exactly the character `c`. -/
def stepChar (c : Char) : Str → Option Str
  | x :: rest => if x = c then some rest else none
  | [] => none

/-- Consume one separator character. -/
def stepSep : Str → Option Str
  | x :: rest => if optSepChar x then some rest else none
  | [] => none

/-- Backtracking alternatives of the first optional group
`(\+?\d{1,3}[-.\s]?)?`, in CPython preference order (group present before
absent, `\+?` taken before skipped, longer digit counts first, separator taken
before skipped). -/
def g1Cfgs : List (Option (Bool × Nat × Bool)) :=
  ([true, false].flatMap (fun p =>
    ([3, 2, 1].flatMap (fun d =>
      [true, false].map (fun sep => some (p, d, sep)))))) ++ [none]

/-- Backtracking alternatives of the second optional group
`(\(?\d{2,4}\)?[-.\s]?)?`. -/
def g2Cfgs : List (Option (Bool × Nat × Bool × Bool)) :=
  ([true, false].flatMap (fun lp =>
    ([4, 3, 2].flatMap (fun d =>
      ([true, false].flatMap (fun rp =>
        [true, false].map (fun sep => some (lp, d, rp, sep)))))))) ++ [none]

/-- Backtracking alternatives of the mandatory tail `\d{3,4}[-.\s]?\d{3,4}`. -/
def mainCfgs : List (Nat × Bool × Nat) :=
  [4, 3].flatMap (fun d3 =>
    ([true, false].flatMap (fun s3 =>
      [4, 3].map (fun d4 => (d3, s3, d4)))))

/-- Run one alternative of the first group. -/
def applyG1 : Option (Bool × Nat × Bool) → Str → Option Str
  | none, s => some s
  | some (p, d, sep), s => do
    let s ← if p then stepChar '+' s else some s
    let s ← stepDigits d s
    if sep then stepSep s else some s

/-- Run one alternative of the second group. -/
def applyG2 : Option (Bool × Nat × Bool × Bool) → Str → Option Str
  | none, s => some s
  | some (lp, d, rp, sep), s => do
    let s ← if lp then stepChar '(' s else some s
    let s ← stepDigits d s
    let s ← if rp then stepChar ')' s else some s
    if sep then stepSep s else some s

/-- Run one alternative of the mandatory tail. -/
def applyMain : Nat × Bool × Nat → Str → Option Str
  | (d3, s3, d4), s => do
    let s ← stepDigits d3 s
    let s ← if s3 then stepSep s else some s
    stepDigits d4 s

/-- Matcher for `PHONE_RE` at one position: the finitely many backtracking
alternatives are tried in CPython order (the leftmost choice point varies
slowest); returns `group(0)`. -/
def phoneMatchAt (_prev : Option Char) (s : Str) : Option Str :=
  firstSome (fun c1 =>
    (applyG1 c1 s).bind (fun s1 =>
      firstSome (fun c2 =>
        (applyG2 c2 s1).bind (fun s2 =>
          firstSome (fun cm =>
            (applyMain cm s2).map (fun s3 => s.take (s.length - s3.length)))
            mainCfgs))
        g2Cfgs))
    g1Cfgs

/-- Embedding of `PHONE_RE.search`. -/
def phoneSearch (s : Str) : Option Str := reSearch phoneMatchAt none s

/-! ## Separator splits -/

/-- Does the separator `\s*[-…|]\s*` (optionally with the `\s{2,}` second
alternative) match at the head of `s`?  Returns the consumed length. -/
def trySepAt (dashes : List Char) (twoSp : Bool) (s : Str) : Option Nat :=
  let run := s.takeWhile pyIsSpace
  match s.drop run.length with
  | c :: rest =>
    if c ∈ dashes then
      let run2 := rest.takeWhile pyIsSpace
      some (run.length + 1 + run2.length)
    else if twoSp ∧ 2 ≤ run.length then some run.length else none
  | [] => if twoSp ∧ 2 ≤ run.length then some run.length else none

/-- Leftmost separator occurrence: prefix length and separator length. -/
def sepFind (dashes : List Char) (twoSp : Bool) : Str → Option (Nat × Nat)
  | [] => none
  | s@(_ :: rest) =>
    match trySepAt dashes twoSp s with
    | some k => some (0, k)
    | none => (sepFind dashes twoSp rest).map (fun r => (r.1 + 1, r.2))

/-- Worker for `splitSep`. -/
def splitSepAux (dashes : List Char) (twoSp : Bool) : Nat → Str → List Str
  | 0, s => [s]
  | fuel + 1, s =>
    match sepFind dashes twoSp s with
    | some (p, k) => s.take p :: splitSepAux dashes twoSp fuel (s.drop (p + k))
    | none => [s]

/-- Embedding of `re.split` for `\s*[-–—|]\s*|\s{2,}` (education) and
`\s*[-|]\s*` (experience role). -/
def splitSep (dashes : List Char) (twoSp : Bool) (s : Str) : List Str :=
  splitSepAux dashes twoSp (s.length + 1) s

/-- Dash characters of the education split. -/
def eduDashes : List Char := ['-', '–', '—', '|']

/-- Dash characters of the experience role split. -/
def roleDashes : List Char := ['-', '|']

/-! ## Blank-line chunking (`re.split(r"\n\s*\n", block)`) -/

/-- After an initial newline, match `\s*\n` greedily: the longest whitespace
prefix that ends at a newline.  Returns the consumed length. -/
def sepNlTail (t : Str) : Option Nat :=
  let run := t.takeWhile pyIsSpace
  match run.reverse.dropWhile (fun c => c ≠ '\n') with
  | [] => none
  | x :: r => some (x :: r).length

/-- Leftmost match of `\n\s*\n`: prefix length and separator length. -/
def blankSepFind : Str → Option (Nat × Nat)
  | [] => none
  | c :: rest =>
    if c = '\n' then
      match sepNlTail rest with
      | some k => some (0, 1 + k)
      | none => (blankSepFind rest).map (fun r => (r.1 + 1, r.2))
    else (blankSepFind rest).map (fun r => (r.1 + 1, r.2))

/-- Worker for `splitBlank`. -/
def splitBlankAux : Nat → Str → List Str
  | 0, s => [s]
  | fuel + 1, s =>
    match blankSepFind s with
    | some (p, k) => s.take p :: splitBlankAux fuel (s.drop (p + k))
    | none => [s]

/-- Embedding of `re.split(r"\n\s*\n", s)`. -/
def splitBlank (s : Str) : List Str := splitBlankAux (s.length + 1) s

/-! ## Sentence split (`re.split(r'(?<=[\.\?\!])\s+', para)`) -/

/-- Terminal punctuation of the sentence-split lookbehind. -/
def sentPunct (c : Char) : Bool := c = '.' || c = '?' || c = '!'

/-- Leftmost occurrence of a whitespace run preceded by terminal punctuation:
prefix length and separator length. -/
def sentSepFind : Option Char → Str → Option (Nat × Nat)
  | _, [] => none
  | prev, c :: rest =>
    if (match prev with | some p => sentPunct p | none => false) && pyIsSpace c then
      some (0, 1 + (rest.takeWhile pyIsSpace).length)
    else (sentSepFind (some c) rest).map (fun r => (r.1 + 1, r.2))

/-- Worker for `sentSplit`. -/
def sentSplitAux : Nat → Option Char → Str → List Str
  | 0, _, s => [s]
  | fuel + 1, prev, s =>
    match sentSepFind prev s with
    | some (p, k) =>
      s.take p :: sentSplitAux fuel ((s.take (p + k)).getLast?.orElse (fun _ => prev)) (s.drop (p + k))
    | none => [s]

/-- Embedding of the sentence split. -/
def sentSplit (s : Str) : List Str := sentSplitAux (s.length + 1) none s

/-! ## Title casing, dedup, sort, dict update -/

/-- Worker for `pyTitle`: the flag records whether the previous character was
cased. -/
def pyTitleAux : Bool → Str → Str
  | _, [] => []
  | prevCased, c :: rest =>
    if isAsciiAlpha c then
      (if prevCased then c.toLower else c.toUpper) :: pyTitleAux true rest
    else c :: pyTitleAux false rest

/-- Python `str.title()` (ASCII case mapping). -/
def pyTitle (s : Str) : Str := pyTitleAux false s

/-- Worker for `dedupFS`. -/
def dedupFSAux (seen : List Str) : List Str → List Str
  | [] => []
  | x :: rest =>
    if x ∈ seen then dedupFSAux seen rest else x :: dedupFSAux (x :: seen) rest

/-- Python `list(dict.fromkeys(xs))`: deduplication keeping the first
occurrence, preserving order. -/
def dedupFS (l : List Str) : List Str := dedupFSAux [] l

/-- Python string comparison: lexicographic by code point. -/
def lexLe : Str → Str → Bool
  | [], _ => true
  | _ :: _, [] => false
  | a :: as, b :: bs => if a = b then lexLe as bs else decide (a < b)

/-- The order relation behind `lexLe`, for the sortedness lemmas. -/
def LexRel (a b : Str) : Prop := lexLe a b = true

instance : DecidableRel LexRel := fun a b => by
  unfold LexRel; infer_instance

/-- Python `sorted(xs)` on a duplicate-free list of strings: every comparison
sort computes the same, unique sorted permutation, embedded here as insertion
sort over the code-point order. -/
def pySorted (l : List Str) : List Str := List.insertionSort LexRel l

/-- Python `d[k] = v` on an insertion-ordered dict rendered as an association
list: replace in place if the key exists, else append. -/
def dictSet (d : List (Str × α)) (k : Str) (v : α) : List (Str × α) :=
  match d with
  | [] => [(k, v)]
  | (k', v') :: rest => if k' = k then (k', v) :: rest else (k', v') :: dictSet rest k v

/-! ## Section synonym and terminator sets (all matched case-insensitively) -/

/-- Education header synonyms. -/
def eduSyns : List Str :=
  ["education", "academics", "qualification", "educational",
   "academic background", "education history"].map String.toList

/-- Education terminators. -/
def eduTerms : List Str :=
  ["experience", "projects", "skills", "certifications", "achievements",
   "work experience"].map String.toList

/-- Experience header synonyms. -/
def expSyns : List Str :=
  ["experience", "work experience", "employment",
   "professional experience"].map String.toList

/-- Experience terminators. -/
def expTerms : List Str :=
  ["projects", "education", "skills", "certifications"].map String.toList

/-- Skills header synonyms. -/
def skillsSyns : List Str :=
  ["skills", "technical skills", "core skills", "areas of expertise",
   "skillset"].map String.toList

/-- Skills terminators. -/
def skillsTerms : List Str :=
  ["certifications", "projects", "experience", "education"].map String.toList

/-- Projects header synonyms. -/
def projSyns : List Str :=
  ["projects", "selected projects", "academic projects"].map String.toList

/-- Projects terminators. -/
def projTerms : List Str :=
  ["skills", "certifications", "experience", "education"].map String.toList

/-- Certifications header synonyms. -/
def certSyns : List Str := ["certifications", "certification"].map String.toList

/-- Certifications terminators. -/
def certTerms : List Str :=
  ["projects", "skills", "experience", "education"].map String.toList

/-- Degree keywords of the education extractor. -/
def degreeLits : List Str :=
  ["bachelor", "master", "b.tech", "m.tech", "mba", "ph.d", "bsc", "msc",
   "diploma", "be", "b.e."].map String.toList

/-- Institution keywords of the education lookahead. -/
def instLits : List Str :=
  ["university", "college", "institute", "school", "institute of technology",
   "iit", "nit"].map String.toList

/-- Non-blank whitespace-stripped lines: `[l.strip() for l in s.splitlines()
if l.strip()]`. -/
def nbWsLines (t : Str) : List Str :=
  ((pySplitlines t).map pyStripWs).filter (fun l => !l.isEmpty)

/-! ## Education extractor -/

/-- One education entry; absent Python dict keys are `none`. -/
structure EduEntry where
  degree : Option Str := none
  field : Option Str := none
  extra : Option Str := none
  cgpa : Option Str := none
  start_date : Option Str := none
  end_date : Option Str := none
  institution : Option Str := none
  deriving DecidableEq

/-- The lookahead loop of the main education pass (institution, extra dates,
CGPA), folded over up to three following non-blank lines. -/
def eduLookFold (look : List Str) (inst sd ed cg : Option Str) :
    Option Str × Option Str × Option Str × Option Str :=
  look.foldl (fun st nxt =>
    let inst := if ciSubAny instLits nxt ∧ st.1 = none then some nxt else st.1
    let more := dateFindAll nxt
    let sd := if st.2.1 = none then (if more.isEmpty then st.2.1 else more.head?) else st.2.1
    let ed := if st.2.2.1 = none then (if 1 < more.length then more[1]? else st.2.2.1) else st.2.2.1
    let cg := if st.2.2.2 = none then cgpaSearch nxt else st.2.2.2
    (inst, sd, ed, cg)) (inst, sd, ed, cg)

/-- Build the entry of the main education pass for a degree-keyword line and
its lookahead window. -/
def mkEduEntry (line : Str) (look : List Str) : EduEntry :=
  let parts := splitSep eduDashes true line
  let degree := some (pyStripWs (parts.headD []))
  let field := parts[1]?.map pyStripWs
  let extra0 := parts[2]?.map pyStripWs
  let c1 :=
    match cgpaSearch line with
    | some g => some g
    | none =>
      match firstSome cgpaSearch parts with
      | some g => some g
      | none => firstSome cgpaSearch look
  let cgpaExtra : Option Str × Option Str :=
    match c1 with
    | some g => (some g, extra0.map (fun e => pyStripWs (cgpaSubAll e)))
    | none =>
      match bareGpaSearch line with
      | some s0 => (some s0, extra0)
      | none =>
        match looseGpaSearch line with
        | some g => (some g, extra0)
        | none => (none, extra0)
  let dates := dateFindAll line
  let st := eduLookFold look none dates.head? dates[1]? cgpaExtra.1
  { degree := degree, field := field, extra := cgpaExtra.2, cgpa := st.2.2.2,
    start_date := st.2.1, end_date := st.2.2.1, institution := st.1 }

/-- One lookahead line of the whole-text fallback pass: institution and CGPA
are overwritten on every hit, the dates only when still unset. -/
def eduFallbackStep (e : EduEntry) (nxt : Str) : EduEntry :=
  let e := if ciSubAny instLits nxt then { e with institution := some nxt } else e
  let dates := dateFindAll nxt
  let e := if e.start_date = none ∧ !dates.isEmpty then { e with start_date := dates.head? } else e
  let e := if e.end_date = none ∧ 1 < dates.length then { e with end_date := dates[1]? } else e
  match cgpaSearch nxt with
  | some g => { e with cgpa := some g }
  | none => e

/-- Build the entry of the whole-text fallback pass: the degree is the whole
line; the lookahead overwrites institution and CGPA on every hit. -/
def mkEduFallback (line : Str) (look : List Str) : EduEntry :=
  look.foldl eduFallbackStep { degree := some line }

/-- Main education pass over the lines of the block: an entry per
degree-keyword line, kept only when degree or institution is truthy. -/
def eduFirstPass : List Str → List EduEntry
  | [] => []
  | line :: rest =>
    (if ciSubAny degreeLits line then
      (let e := mkEduEntry line (rest.take 3)
       if optTruthy e.degree || optTruthy e.institution then [e] else [])
     else []) ++ eduFirstPass rest

/-- Whole-text fallback pass: an entry per degree-keyword line,
unconditionally. -/
def eduFallbackPass : List Str → List EduEntry
  | [] => []
  | line :: rest =>
    (if ciSubAny degreeLits line then [mkEduFallback line (rest.take 3)] else []) ++
    eduFallbackPass rest

/-- Embedding of `extract_education`.  The `try/except` of the source wraps
pure computation here, so the handler (returning the accumulated list) is
dead. -/
def extract_education (t : Str) : List EduEntry :=
  let block := (sectionSearch eduSyns eduTerms t).getD t
  let education := eduFirstPass (nbWsLines block)
  if education.isEmpty then eduFallbackPass (nbWsLines t) else education

/-! ## Experience extractor -/

/-- One experience entry. -/
structure ExpEntry where
  role : Str
  company : Option Str
  start_date : Option Str
  end_date : Option Str
  location : Option Str
  responsibilities : List Str
  deriving DecidableEq

/-- The strip set `"•- *\t"` of the experience chunk lines. -/
def expMarks : List Char := ['•', '-', ' ', '*', '\t']

/-- The processed lines of one experience chunk:
`[l.strip("•- *\t") for l in chunk.splitlines() if l.strip()]`. -/
def expChunkLines (chunk : Str) : List Str :=
  ((pySplitlines chunk).filter (fun l => !(pyStripWs l).isEmpty)).map
    (pyStripChars expMarks)

/-- Body of the per-chunk parse, given the non-empty processed lines. -/
def chunkBody (chunk : Str) (l0 : Str) (lrest : List Str) : ExpEntry :=
    let roleCompany : Str × Option Str :=
      match atSearch chunk with
      | some g => (l0, some (pyStripWs g))
      | none =>
        if '-' ∈ l0 ∨ '|' ∈ l0 then
          let parts := splitSep roleDashes false l0
          if 1 < parts.length then
            (pyStripWs (parts.headD []), some (pyStripWs (parts[1]?.getD [])))
          else (l0, none)
        else (l0, none)
    let company :=
      if optTruthy roleCompany.2 then roleCompany.2
      else
        match lrest with
        | l1 :: _ =>
          if capSearch l1 then
            (if (wsWords l1).length < 6 ∧ hasLetter l1 then some l1 else roleCompany.2)
          else roleCompany.2
        | [] => roleCompany.2
    let dates := dateFindAll chunk
    let respRaw := respFindAll chunk
    let responsibilities :=
      if !respRaw.isEmpty then (respRaw.map pyStripWs).filter (fun r => !r.isEmpty)
      else
        let shortLines := (lrest.take 5).filter (fun ln => !ln.isEmpty ∧ ln.length < 200)
        if !shortLines.isEmpty then shortLines
        else if !lrest.isEmpty then
          ((sentSplit (joinSpace lrest)).take 3).map pyStripWs |>.filter (fun s => !s.isEmpty)
        else []
    { role := roleCompany.1, company := company,
      start_date := dates.head?, end_date := dates[1]?,
      location := citySearch chunk, responsibilities := responsibilities }

/-- Parse one blank-line-delimited chunk; `none` when the chunk has no
non-blank line (the `continue` of the source). -/
def chunkEntry (chunk : Str) : Option ExpEntry :=
  match expChunkLines chunk with
  | [] => none
  | l0 :: lrest => some (chunkBody chunk l0 lrest)

/-- Embedding of `extract_experience`. -/
def extract_experience (t : Str) : List ExpEntry :=
  let block := (sectionSearch expSyns expTerms t).getD t
  (splitBlank block).filterMap chunkEntry

/-! ## Projects extractor -/

/-- One project entry. -/
structure ProjEntry where
  title : Str
  tech : List Str
  date : Option Str
  description : Str
  deriving DecidableEq

/-- Technology literals of the projects pattern, in pattern order. -/
def techLits : List Str :=
  ["python", "java", "c++", "sql", "pytorch", "tensorflow", "react", "angular",
   "html", "css", "javascript", "pandas", "numpy"].map String.toList

/-- Matcher for the technology pattern (the group returns the text as it
occurs). -/
def techMatchAt (_prev : Option Char) (s : Str) : Option (Str × Nat) :=
  match techLits.find? (fun kw => ciAt kw s) with
  | some kw => some (s.take kw.length, kw.length)
  | none => none

/-- The strip set `"∗-• "` of the projects (and certifications) lines. -/
def projMarks : List Char := ['∗', '-', '•', ' ']

/-- The processed lines of one projects chunk. -/
def projChunkLines (chunk : Str) : List Str :=
  ((pySplitlines chunk).filter (fun l => !(pyStripWs l).isEmpty)).map
    (pyStripChars projMarks)

/-- Parse one projects chunk. -/
def projEntry (chunk : Str) : Option ProjEntry :=
  match projChunkLines chunk with
  | [] => none
  | l0 :: lrest =>
    some { title := l0,
           tech := dedupFS ((reFindAll techMatchAt chunk).map pyTitle),
           date := projDateSearch chunk,
           description := joinSpace lrest }

/-- Embedding of `extract_projects`. -/
def extract_projects (t : Str) : List ProjEntry :=
  let block := (sectionSearch projSyns projTerms t).getD t
  (splitBlank block).filterMap projEntry

/-! ## Certifications extractor -/

/-- Embedding of `extract_certifications`.  When the section regex does not
match, the source sets `block = ""` (not the whole text). -/
def extract_certifications (t : Str) : List Str :=
  let block := (sectionSearch certSyns certTerms t).getD []
  (pySplitlines block).filterMap (fun l =>
    let l2 := pyStripChars projMarks l
    if !l2.isEmpty ∧ !ciSub ("certification".toList) l2 then some l2 else none)

/-! ## Skills extractor -/

/-- Value-list delimiters `[,;/•\-|]`. -/
def skillDelims : List Char := [',', ';', '/', '•', '-', '|']

/-- The category part of a `category: values` line (before the first colon). -/
def skillsB1Cat (line : Str) : Str := line.takeWhile (fun c => c ≠ ':')

/-- The cleaned value items of a `category: values` line: the part after the
first colon, split on the delimiter class, stripped, empties removed. -/
def skillsB1Items (line : Str) : List Str :=
  ((splitChars skillDelims (line.drop ((skillsB1Cat line).length + 1))).map
    pyStripWs).filter (fun s => !s.isEmpty)

/-- One `category: values` line folded into the skills dict. -/
def skillsB1Step (d : List (Str × List Str)) (line : Str) : List (Str × List Str) :=
  if ':' ∈ line ∧ line.length < 250 then
    if hasLetter (skillsB1Cat line) then
      if !(skillsB1Items line).isEmpty then
        dictSet d (pyStripWs (skillsB1Cat line))
          (pySorted (dedupFS ((skillsB1Items line).map pyTitle)))
      else d
    else d
  else d

/-- First skills strategy: `category: values` lines folded into the dict. -/
def extract_skills_b1 (block : Str) : List (Str × List Str) :=
  (pySplitlines block).foldl skillsB1Step []

/-- Second skills strategy: collect the values of the bullet-pattern tuples. -/
def skillsBulletFound (block : Str) : List Str :=
  (skillsTuples block).foldl (fun acc tup =>
    [tup.1, tup.2.1, tup.2.2].foldl (fun acc2 val =>
      if !val.isEmpty ∧ 1 < (pyStripWs val).length then
        acc2 ++ ((splitChars skillDelims val).map pyStripWs).filter (fun p => !p.isEmpty)
      else acc2) acc) []

/-- Third skills strategy: vocabulary scan over the whole text into a set,
then sorted. -/
def extract_skills_b3 (t : Str) : List (Str × List Str) :=
  let hits := SKILL_KEYWORDS.filter (fun kw => kwFound kw t)
  if hits.isEmpty then []
  else [("General".toList, pySorted (dedupFS (hits.map pyTitle)))]

/-- The block the skills extractor works on. -/
def skillsBlock (t : Str) : Str := (sectionSearch skillsSyns skillsTerms t).getD t

/-- Embedding of `extract_skills`: the three strategies in priority order;
the second runs only when the section regex matched. -/
def extract_skills (t : Str) : List (Str × List Str) :=
  if !(extract_skills_b1 (skillsBlock t)).isEmpty then extract_skills_b1 (skillsBlock t)
  else
    match sectionSearch skillsSyns skillsTerms t with
    | some _ =>
      if !(skillsBulletFound (skillsBlock t)).isEmpty then
        [("General".toList,
          pySorted (dedupFS (((skillsBulletFound (skillsBlock t)).filter
            (fun s => s.length < 40)).map pyTitle)))]
      else extract_skills_b3 t
    | none => extract_skills_b3 t

/-! ## Personal info extractor and orchestrator -/

/-- Personal info record (`None` values are `none`). -/
structure PersonalInfo where
  name : Option Str
  email : Option Str
  phone : Option Str
  deriving DecidableEq

/-- A Python exception crossing an extractor boundary. -/
inductive PyErr where
  | exc : PyErr
  deriving DecidableEq

/-- One named entity returned by the entity-recognition capability. -/
structure NEnt where
  label : Str
  text : Str

/-- The process-wide entity-recognition model: given text it returns labelled
entities, or fails (the only failing operation reachable from the
extractors). -/
abbrev NerModel := Str → Except PyErr (List NEnt)

/-- Python `s[0].isupper()` on a non-empty string (false on empty). -/
def headUpper : Str → Bool
  | c :: _ => c.isUpper
  | [] => false

/-- Embedding of `_first_person_name`: layout heuristic on the first non-blank
line, else the first PERSON entity of the first six lines. -/
def first_person_name (ner : NerModel) (t : Str) : Except PyErr (Option Str) :=
  match nbWsLines t with
  | [] => Except.ok none
  | first :: rest =>
    if (wsWords first).length ≤ 4 ∧ headUpper first then
      Except.ok (some first)
    else do
      let ents ← ner (joinSpace ((first :: rest).take 6))
      Except.ok ((ents.find? (fun e => e.label = ("PERSON".toList))).map (fun e => e.text))

/-- The body of `extract_personal_info`'s `try` block. -/
def extract_personal_info_body (ner : NerModel) (t : Str) : Except PyErr PersonalInfo := do
  let name ← first_person_name ner t
  Except.ok { name := name, email := emailSearch t, phone := phoneSearch t }

/-- Embedding of `extract_personal_info` with its `try/except` boundary. -/
def extract_personal_info (ner : NerModel) (t : Str) : PersonalInfo :=
  match extract_personal_info_body ner t with
  | Except.ok r => r
  | Except.error _ => { name := none, email := none, phone := none }

/-- Serializable Python values, for the orchestrator's output dict. -/
inductive PyVal where
  | pynone : PyVal
  | pystr : Str → PyVal
  | pylist : List PyVal → PyVal
  | pydict : List (Str × PyVal) → PyVal

/-- Optional string to Python value. -/
def optStrPy : Option Str → PyVal
  | some s => PyVal.pystr s
  | none => PyVal.pynone

/-- Personal info as the dict built by the source. -/
def piPy (p : PersonalInfo) : PyVal :=
  PyVal.pydict
    [(("name".toList), optStrPy p.name), (("email".toList), optStrPy p.email),
     (("phone".toList), optStrPy p.phone)]

/-- Education entry as a dict (present keys only; key order normalized). -/
def eduPy (e : EduEntry) : PyVal :=
  PyVal.pydict
    (([(("degree".toList), e.degree), (("field".toList), e.field),
       (("extra".toList), e.extra), (("cgpa".toList), e.cgpa),
       (("start_date".toList), e.start_date), (("end_date".toList), e.end_date),
       (("institution".toList), e.institution)]).filterMap
      (fun kv => kv.2.map (fun v => (kv.1, PyVal.pystr v))))

/-- Experience entry as the dict built by the source. -/
def expPy (e : ExpEntry) : PyVal :=
  PyVal.pydict
    [(("role".toList), PyVal.pystr e.role), (("company".toList), optStrPy e.company),
     (("start_date".toList), optStrPy e.start_date),
     (("end_date".toList), optStrPy e.end_date),
     (("location".toList), optStrPy e.location),
     (("responsibilities".toList), PyVal.pylist (e.responsibilities.map PyVal.pystr))]

/-- Project entry as the dict built by the source. -/
def projPy (e : ProjEntry) : PyVal :=
  PyVal.pydict
    [(("title".toList), PyVal.pystr e.title),
     (("tech".toList), PyVal.pylist (e.tech.map PyVal.pystr)),
     (("date".toList), optStrPy e.date),
     (("description".toList), PyVal.pystr e.description)]

/-- Skills mapping as a dict of lists. -/
def skillsPy (d : List (Str × List Str)) : PyVal :=
  PyVal.pydict (d.map (fun kv => (kv.1, PyVal.pylist (kv.2.map PyVal.pystr))))

/-- The body of `parse_resume`'s `try` block: the six extractors assembled
into the profile dict.  The extractors are total (each catches its own
failures), so the body never fails. -/
def parse_resume_body (ner : NerModel) (t : Str) : Except PyErr PyVal :=
  Except.ok (PyVal.pydict
    [(("personal_info".toList), piPy (extract_personal_info ner t)),
     (("education".toList), PyVal.pylist ((extract_education t).map eduPy)),
     (("experience".toList), PyVal.pylist ((extract_experience t).map expPy)),
     (("projects".toList), PyVal.pylist ((extract_projects t).map projPy)),
     (("skills".toList), skillsPy (extract_skills t)),
     (("certifications".toList),
      PyVal.pylist ((extract_certifications t).map PyVal.pystr))])

/-- The profile returned by `parse_resume`'s outer `except` branch: note its
`personal_info` is an empty dict, without the name/email/phone keys. -/
def parse_resume_fallback : PyVal :=
  PyVal.pydict
    [(("personal_info".toList), PyVal.pydict []),
     (("education".toList), PyVal.pylist []),
     (("experience".toList), PyVal.pylist []),
     (("projects".toList), PyVal.pylist []),
     (("skills".toList), PyVal.pydict []),
     (("certifications".toList), PyVal.pylist [])]

/-- Embedding of `parse_resume` with its outer `try/except`. -/
def parse_resume (ner : NerModel) (t : Str) : PyVal :=
  match parse_resume_body ner t with
  | Except.ok d => d
  | Except.error _ => parse_resume_fallback

/-! ## Line structure

`splitBr` splits at every break character individually.  It differs from
`pySplitlines` only in blank lines (around `\r\n` pairs and at the edges), so
both give the same non-blank lines; `splitBr` composes far better with the
blank-line chunking of the experience extractor. -/

/-- Split at every line-break character (no `\r\n` pairing). -/
def splitBr : Str → List Str
  | [] => [[]]
  | c :: rest =>
    if isLineBreak c then [] :: splitBr rest
    else
      match splitBr rest with
      | [] => [[c]]
      | p :: ps => (c :: p) :: ps

/-- Non-blank test of a line: Python `bool(l.strip())`. -/
def nbP (l : Str) : Bool := !(pyStripWs l).isEmpty

/-- Prepend to the first part (or make a part when there is none). -/
def prependHead (x : Str) : List Str → List Str
  | [] => [x]
  | p :: ps => (x ++ p) :: ps

/-- Non-blank raw lines of a text, as the extractors filter them. -/
def nbLines (t : Str) : List Str := (pySplitlines t).filter nbP

/-- Non-blank parts of the single-character break split. -/
def nbParts (t : Str) : List Str := (splitBr t).filter nbP


/-- The output claim C4 predicts for a text with no certifications header:
the whole text treated as the block, every non-blank line kept with markers
stripped except lines containing the word "certification" (stated from the
spec for comparison with the code's behaviour). -/
def certificationsSpecWholeDoc (t : Str) : List Str :=
  (pySplitlines t).filterMap (fun l =>
    let l2 := pyStripChars projMarks l
    if !l2.isEmpty ∧ !ciSub ("certification".toList) l2 then some l2 else none)

/-- The shape of every list stored by the skills extractor. -/
def skillListShape (v : List Str) : Prop :=
  ∃ raw : List Str, v = pySorted (dedupFS (raw.map pyTitle))


/-- A concrete entity-recognition stub for the C7 witness. -/
def nerStub : NerModel := fun _ => Except.ok []


/-- An entity-recognition model that always fails, exercising the
extractor-boundary catch. -/
def failNer : NerModel := fun _ => Except.error PyErr.exc


/-! ## Generic lemmas about the scanning primitives -/

theorem firstSome_eq_none_of {f : α → Option β} {l : List α}
    (h : ∀ a ∈ l, f a = none) : firstSome f l = none := by
  induction l with
  | nil => rfl
  | cons a l ih =>
    rw [show firstSome f (a :: l) =
      (match f a with | some b => some b | none => firstSome f l) from rfl]
    rw [h a (List.mem_cons_self a l)]
    exact ih (fun x hx => h x (List.mem_cons_of_mem a hx))

theorem firstSome_eq_some {f : α → Option β} {l : List α} {b : β}
    (h : firstSome f l = some b) : ∃ a ∈ l, f a = some b := by
  induction l with
  | nil => cases h
  | cons a l ih =>
    rw [show firstSome f (a :: l) =
      (match f a with | some b => some b | none => firstSome f l) from rfl] at h
    rcases ha : f a with _ | b'
    · rw [ha] at h
      obtain ⟨x, hx, hfx⟩ := ih h
      exact ⟨x, List.mem_cons_of_mem a hx, hfx⟩
    · rw [ha] at h
      exact ⟨a, List.mem_cons_self a l, ha.trans h⟩

theorem ciAt_of_append {p q u : Str} (h : ciAt (p ++ q) u = true) : ciAt p u = true := by
  induction p generalizing u with
  | nil => rfl
  | cons a p ih =>
    cases u with
    | nil => exact absurd h (by simp [ciAt])
    | cons c cs =>
      rw [show ciAt ((a :: p) ++ q) (c :: cs) = (lowEq a c && ciAt (p ++ q) cs) from rfl] at h
      rw [show ciAt (a :: p) (c :: cs) = (lowEq a c && ciAt p cs) from rfl]
      simp only [Bool.and_eq_true] at h ⊢
      exact ⟨h.1, ih h.2⟩

theorem ciSub_of_append {p q : Str} : ∀ {t : Str}, ciSub (p ++ q) t = true → ciSub p t = true := by
  intro t
  induction t with
  | nil =>
    intro h
    rw [show ciSub (p ++ q) [] = ciAt (p ++ q) [] from rfl] at h
    rw [show ciSub p [] = ciAt p [] from rfl]
    exact ciAt_of_append h
  | cons c cs ih =>
    intro h
    rw [show ciSub (p ++ q) (c :: cs) = (ciAt (p ++ q) (c :: cs) || ciSub (p ++ q) cs) from rfl] at h
    rw [show ciSub p (c :: cs) = (ciAt p (c :: cs) || ciSub p cs) from rfl]
    simp only [Bool.or_eq_true] at h ⊢
    rcases h with h | h
    · exact Or.inl (ciAt_of_append h)
    · exact Or.inr (ih h)

theorem sectionSearchAux_eq_none {syns terms : List Str} :
    ∀ t : Str, (∀ syn ∈ syns, ciSub syn t = false) →
    sectionSearchAux syns terms t = none := by
  intro t
  induction t with
  | nil => intro _; rfl
  | cons c rest ih =>
    intro h
    have hsplit : ∀ syn ∈ syns, ciAt syn (c :: rest) = false ∧ ciSub syn rest = false := by
      intro syn hs
      have hcs := h syn hs
      rw [show ciSub syn (c :: rest) = (ciAt syn (c :: rest) || ciSub syn rest) from rfl] at hcs
      simpa using hcs
    rw [show sectionSearchAux syns terms (c :: rest) =
      (match trySectionAt syns terms (c :: rest) with
       | some b => some b
       | none => sectionSearchAux syns terms rest) from rfl]
    have htry : trySectionAt syns terms (c :: rest) = none := by
      apply firstSome_eq_none_of
      intro syn hs
      simp [(hsplit syn hs).1]
    rw [htry]
    exact ih (fun syn hs => (hsplit syn hs).2)

theorem ciAt_nonempty_cons {s0 : Char} {ss u : Str} (h : ciAt (s0 :: ss) u = true) :
    ∃ c cs, u = c :: cs ∧ lowEq s0 c = true := by
  cases u with
  | nil => exact absurd h (by simp [ciAt])
  | cons c cs =>
    rw [show ciAt (s0 :: ss) (c :: cs) = (lowEq s0 c && ciAt ss cs) from rfl] at h
    exact ⟨c, cs, rfl, (Bool.and_eq_true _ _ |>.mp h).1⟩

theorem sectionSearchAux_some_head {syns terms : List Str}
    (hne : ∀ syn ∈ syns, syn ≠ ([] : Str)) :
    ∀ {t b : Str}, sectionSearchAux syns terms t = some b →
    ∃ s0 c cs, (∃ ss, (s0 :: ss) ∈ syns) ∧ b = c :: cs ∧ lowEq s0 c = true := by
  intro t
  induction t with
  | nil => intro b h; cases h
  | cons x rest ih =>
    intro b h
    rw [show sectionSearchAux syns terms (x :: rest) =
      (match trySectionAt syns terms (x :: rest) with
       | some b => some b
       | none => sectionSearchAux syns terms rest) from rfl] at h
    rcases htry : trySectionAt syns terms (x :: rest) with _ | b'
    · rw [htry] at h
      exact ih h
    · rw [htry] at h
      injection h with hb
      subst hb
      obtain ⟨syn, hmem, hfs⟩ := firstSome_eq_some htry
      by_cases hat : ciAt syn (x :: rest) = true
      · rw [if_pos hat] at hfs
        cases syn with
        | nil => exact absurd rfl (hne [] hmem)
        | cons s0 ss =>
          rcases Option.map_eq_some'.mp hfs with ⟨k, _, hbk⟩
          obtain ⟨c, cs, hu, hle⟩ := ciAt_nonempty_cons hat
          have htake : (x :: rest).take ((s0 :: ss).length + k) =
              c :: cs.take (ss.length + k) := by
            rw [hu, List.length_cons,
              show ss.length + 1 + k = (ss.length + k) + 1 by omega]
            exact List.take_succ_cons
          exact ⟨s0, c, cs.take (ss.length + k), ⟨ss, hmem⟩, by rw [← hbk, htake], hle⟩
      · rw [if_neg hat] at hfs
        cases hfs

theorem pyIsSpace_toLower_self {c : Char} (h : pyIsSpace c = true) : c.toLower = c := by
  simp only [pyIsSpace, Bool.or_eq_true, decide_eq_true_eq] at h
  repeat rcases h with h | h
  all_goals (try subst h)
  all_goals decide

theorem splitBr_ne_nil : ∀ s : Str, splitBr s ≠ [] := by
  intro s
  cases s with
  | nil => simp [splitBr]
  | cons c rest =>
    rw [show splitBr (c :: rest) =
      (if isLineBreak c then [] :: splitBr rest
       else match splitBr rest with
            | [] => [[c]]
            | p :: ps => (c :: p) :: ps) from rfl]
    by_cases h : isLineBreak c = true
    · simp [h]
    · simp only [h, if_false, Bool.false_eq_true]
      split <;> simp

theorem splitBr_cons_break {c : Char} (hbr : isLineBreak c = true) (rest : Str) :
    splitBr (c :: rest) = [] :: splitBr rest := by
  rw [show splitBr (c :: rest) =
    (if isLineBreak c then [] :: splitBr rest
     else match splitBr rest with
          | [] => [[c]]
          | p :: ps => (c :: p) :: ps) from rfl, if_pos hbr]

theorem splitBr_cons_char {c : Char} (hbr : isLineBreak c = false) (rest : Str) :
    splitBr (c :: rest) = prependHead [c] (splitBr rest) := by
  rw [show splitBr (c :: rest) =
    (if isLineBreak c then [] :: splitBr rest
     else match splitBr rest with
          | [] => [[c]]
          | p :: ps => (c :: p) :: ps) from rfl, if_neg (by simp [hbr])]
  rcases h : splitBr rest with _ | ⟨p, ps⟩
  · exact absurd h (splitBr_ne_nil rest)
  · rfl

theorem prependHead_append {x : Str} {l m : List Str} (h : l ≠ []) :
    prependHead x (l ++ m) = prependHead x l ++ m := by
  cases l with
  | nil => exact absurd rfl h
  | cons p ps => rfl

theorem nbP_nil : nbP ([] : Str) = false := by decide

set_option maxHeartbeats 1600000 in
theorem slAux_filter : ∀ (cur : Str) (s : Str),
    (slAux cur s).filter nbP = (prependHead cur.reverse (splitBr s)).filter nbP := by
  intro cur s
  induction cur, s using slAux.induct with
  | case1 cur hcur =>
    rw [List.isEmpty_iff.mp hcur]
    decide
  | case2 cur hcur =>
    rw [show slAux cur [] = if cur.isEmpty then [] else [cur.reverse] from rfl,
      if_neg hcur]
    show [cur.reverse].filter nbP = ([cur.reverse ++ []]).filter nbP
    rw [List.append_nil]
  | case3 cur rest ih =>
    rw [show slAux cur ('\r' :: '\n' :: rest) = cur.reverse :: slAux [] rest from rfl]
    rw [splitBr_cons_break (by decide), splitBr_cons_break (by decide)]
    rcases hsb : splitBr rest with _ | ⟨p, ps⟩
    · exact absurd hsb (splitBr_ne_nil rest)
    · rw [hsb] at ih
      simp only [List.filter_cons, nbP_nil, prependHead, List.nil_append,
        List.reverse_nil, List.append_nil] at ih ⊢
      rw [ih]
      try simp
  | case4 cur c rest hnc hbr ih =>
    rw [slAux.eq_3 cur c rest hnc, if_pos hbr, splitBr_cons_break hbr]
    rcases hsb : splitBr rest with _ | ⟨p, ps⟩
    · exact absurd hsb (splitBr_ne_nil rest)
    · rw [hsb] at ih
      simp only [List.filter_cons, nbP_nil, prependHead, List.nil_append,
        List.reverse_nil, List.append_nil] at ih ⊢
      rw [ih]
      try simp
  | case5 cur c rest hnc hbr ih =>
    have hbr2 : isLineBreak c = false := by simpa using hbr
    rw [slAux.eq_3 cur c rest hnc, if_neg (by simp [hbr2]), splitBr_cons_char hbr2, ih]
    rcases hsb : splitBr rest with _ | ⟨p, ps⟩
    · exact absurd hsb (splitBr_ne_nil rest)
    · simp [prependHead, List.reverse_cons]

theorem nbLines_eq_nbParts (t : Str) : nbLines t = nbParts t := by
  have h := slAux_filter [] t
  rcases hsb : splitBr t with _ | ⟨p, ps⟩
  · exact absurd hsb (splitBr_ne_nil t)
  · rw [hsb] at h
    simp only [List.reverse_nil, prependHead, List.nil_append] at h
    rw [nbLines, nbParts, pySplitlines, hsb]
    exact h

theorem splitBr_append_nl : ∀ (x y : Str), splitBr (x ++ '\n' :: y) = splitBr x ++ splitBr y := by
  intro x y
  induction x with
  | nil =>
    rw [List.nil_append, splitBr_cons_break (by decide)]
    rfl
  | cons c x ih =>
    by_cases hc : isLineBreak c = true
    · rw [List.cons_append, splitBr_cons_break hc, splitBr_cons_break hc, ih, List.cons_append]
    · have hc2 : isLineBreak c = false := by simpa using hc
      rw [List.cons_append, splitBr_cons_char hc2, splitBr_cons_char hc2, ih,
        prependHead_append (splitBr_ne_nil x)]

theorem stripWs_all_space {l : Str} (h : ∀ c ∈ l, pyIsSpace c = true) : pyStripWs l = [] := by
  have h1 : l.dropWhile pyIsSpace = [] := by
    rw [List.dropWhile_eq_nil_iff]
    intro a ha
    exact h a ha
  rw [pyStripWs, h1]
  rfl

theorem mem_splitBr_mem : ∀ {t : Str} {part : Str}, part ∈ splitBr t → ∀ c ∈ part, c ∈ t := by
  intro t
  induction t with
  | nil =>
    intro part hp c hc
    rw [show splitBr [] = [[]] from rfl] at hp
    simp at hp
    subst hp
    cases hc
  | cons a rest ih =>
    intro part hp c hc
    by_cases ha : isLineBreak a = true
    · rw [splitBr_cons_break ha] at hp
      rcases List.mem_cons.mp hp with rfl | hp2
      · cases hc
      · exact List.mem_cons_of_mem a (ih hp2 c hc)
    · have ha2 : isLineBreak a = false := by simpa using ha
      rw [splitBr_cons_char ha2] at hp
      rcases hsb : splitBr rest with _ | ⟨p, ps⟩
      · exact absurd hsb (splitBr_ne_nil rest)
      · rw [hsb] at hp
        rcases List.mem_cons.mp hp with rfl | hp2
        · rcases List.mem_cons.mp hc with rfl | hc2
          · exact List.mem_cons_self c rest
          · exact List.mem_cons_of_mem a (ih (by rw [hsb]; exact List.mem_cons_self p ps) c hc2)
        · exact List.mem_cons_of_mem a (ih (by rw [hsb]; exact List.mem_cons_of_mem p hp2) c hc)

theorem nbParts_all_space {w : Str} (h : ∀ c ∈ w, pyIsSpace c = true) : nbParts w = [] := by
  rw [nbParts, List.filter_eq_nil_iff]
  intro part hp
  have : pyStripWs part = [] :=
    stripWs_all_space (fun c hc => h c (mem_splitBr_mem hp c hc))
  simp [nbP, this]

theorem lineBreak_isSpace {c : Char} (h : isLineBreak c = true) : pyIsSpace c = true := by
  simp only [isLineBreak, Bool.or_eq_true, decide_eq_true_eq] at h
  repeat rcases h with h | h
  all_goals (try subst h)
  all_goals decide

theorem nbP_cons_nonspace {c : Char} (hc : pyIsSpace c = false) (x : Str) :
    nbP (c :: x) = true := by
  rw [nbP]
  have h1 : (c :: x).dropWhile pyIsSpace = c :: x :=
    List.dropWhile_cons_of_neg (by simp [hc])
  rw [pyStripWs, h1]
  by_contra hne
  simp only [Bool.not_eq_true, Bool.not_eq_true'] at hne
  have h2 : ((c :: x).reverse.dropWhile pyIsSpace).reverse = [] := by
    simpa [List.isEmpty_iff] using hne
  have h3 : (c :: x).reverse.dropWhile pyIsSpace = [] := by
    simpa using congrArg List.reverse h2
  have h4 := List.dropWhile_eq_nil_iff.mp h3 c (by simp)
  rw [hc] at h4
  cases h4

theorem nbParts_cons_nonspace {c : Char} (hc : pyIsSpace c = false) (u : Str) :
    nbParts (c :: u) ≠ [] := by
  have hbr : isLineBreak c = false := by
    by_contra hb
    simp only [Bool.not_eq_false] at hb
    rw [lineBreak_isSpace hb] at hc
    cases hc
  rw [nbParts, splitBr_cons_char hbr]
  rcases hsb : splitBr u with _ | ⟨p, ps⟩
  · exact absurd hsb (splitBr_ne_nil u)
  · simp [prependHead, List.filter_cons, nbP_cons_nonspace hc]

theorem dropWhile_head_false {p : α → Bool} :
    ∀ {l : List α} {x : α} {r : List α}, l.dropWhile p = x :: r → p x = false := by
  intro l
  induction l with
  | nil => intro x r h; cases h
  | cons a l ih =>
    intro x r h
    rw [List.dropWhile_cons] at h
    by_cases hpa : p a = true
    · rw [if_pos hpa] at h
      exact ih h
    · rw [if_neg hpa] at h
      injection h with h1 _
      subst h1
      simpa using hpa

theorem sepNlTail_decomp {u : Str} {k : Nat} (h : sepNlTail u = some k) :
    ∃ w, u = w ++ '\n' :: u.drop k ∧ (∀ c ∈ w, pyIsSpace c = true) ∧ k = w.length + 1 := by
  rw [sepNlTail] at h
  set R := u.takeWhile pyIsSpace with hR
  set T := u.dropWhile pyIsSpace with hT
  set A := R.reverse.takeWhile (fun c => c ≠ '\n') with hA
  rcases hrd : R.reverse.dropWhile (fun c => c ≠ '\n') with _ | ⟨x, r⟩
  · rw [hrd] at h; cases h
  · rw [hrd] at h
    injection h with hk
    have hx : x = '\n' := by
      have h2 := dropWhile_head_false hrd
      simpa using h2
    subst hx
    have hsplit : A ++ '\n' :: r = R.reverse := by
      rw [hA, ← hrd]
      exact List.takeWhile_append_dropWhile _ _
    have hrun : R = r.reverse ++ '\n' :: A.reverse := by
      have h2 := congrArg List.reverse hsplit
      simpa [List.reverse_append] using h2.symm
    have hu : u = R ++ T := (List.takeWhile_append_dropWhile _ _).symm
    have hmemRun : ∀ c ∈ R, pyIsSpace c = true := by
      intro c hc
      exact List.mem_takeWhile_imp hc
    have hZ : u = r.reverse ++ '\n' :: (A.reverse ++ T) := by
      rw [hu, hrun]
      simp
    have hk2 : k = r.reverse.length + 1 := by
      rw [← hk]
      simp
    have hdrop : u.drop k = A.reverse ++ T := by
      rw [hZ,
        show r.reverse ++ '\n' :: (A.reverse ++ T) =
          (r.reverse ++ ['\n']) ++ (A.reverse ++ T) from by simp,
        show k = (r.reverse ++ ['\n']).length from by simp [hk2]]
      exact List.drop_left _ _
    refine ⟨r.reverse, ?_, ?_, hk2⟩
    · rw [hdrop]
      exact hZ
    · intro c hc
      apply hmemRun
      rw [hrun]
      exact List.mem_append_left _ hc

theorem blankSepFind_decomp : ∀ {t : Str} {p k : Nat}, blankSepFind t = some (p, k) →
    ∃ w, t = t.take p ++ '\n' :: w ++ '\n' :: t.drop (p + k) ∧
      (∀ c ∈ w, pyIsSpace c = true) ∧ k = w.length + 2 := by
  intro t
  induction t with
  | nil => intro p k h; cases h
  | cons c rest ih =>
    intro p k h
    rw [show blankSepFind (c :: rest) =
      (if c = '\n' then
        match sepNlTail rest with
        | some k => some (0, 1 + k)
        | none => (blankSepFind rest).map (fun r => (r.1 + 1, r.2))
       else (blankSepFind rest).map (fun r => (r.1 + 1, r.2))) from rfl] at h
    have hprop : (blankSepFind rest).map (fun r => (r.1 + 1, r.2)) = some (p, k) →
        ∃ w, c :: rest = (c :: rest).take p ++ '\n' :: w ++ '\n' :: (c :: rest).drop (p + k) ∧
          (∀ c2 ∈ w, pyIsSpace c2 = true) ∧ k = w.length + 2 := by
      intro hm
      rcases hb : blankSepFind rest with _ | ⟨p1, k1⟩
      · rw [hb] at hm; cases hm
      · rw [hb] at hm
        injection hm with hpk
        have hp : p = p1 + 1 := by
          have := congrArg Prod.fst hpk; simpa using this.symm
        have hkk : k = k1 := by
          have := congrArg Prod.snd hpk; simpa using this.symm
        subst hp; subst hkk
        obtain ⟨w, hw1, hw2, hw3⟩ := ih hb
        refine ⟨w, ?_, hw2, hw3⟩
        rw [List.take_succ_cons, show p1 + 1 + k = (p1 + k) + 1 from by omega,
          List.drop_succ_cons]
        rw [List.cons_append]
        exact congrArg (c :: ·) hw1
    by_cases hc : c = '\n'
    · rw [if_pos hc] at h
      rcases hsep : sepNlTail rest with _ | k1
      · rw [hsep] at h
        exact hprop h
      · rw [hsep] at h
        injection h with hpk
        have hp : p = 0 := by
          have := congrArg Prod.fst hpk; simpa using this.symm
        have hkk : k = 1 + k1 := by
          have := congrArg Prod.snd hpk; simpa using this.symm
        subst hp; subst hkk
        subst hc
        obtain ⟨w, hw1, hw2, hw3⟩ := sepNlTail_decomp hsep
        refine ⟨w, ?_, hw2, by omega⟩
        rw [List.take_zero, List.nil_append,
          show 0 + (1 + k1) = k1 + 1 from by omega, List.drop_succ_cons]
        exact congrArg ('\n' :: ·) hw1
    · rw [if_neg hc] at h
      exact hprop h

theorem nbParts_blankSep {t : Str} {p k : Nat} (h : blankSepFind t = some (p, k)) :
    nbParts t = nbParts (t.take p) ++ nbParts (t.drop (p + k)) := by
  obtain ⟨w, ht, hw, _⟩ := blankSepFind_decomp h
  conv_lhs => rw [nbParts, ht]
  rw [splitBr_append_nl, splitBr_append_nl, List.filter_append, List.filter_append]
  rw [show (splitBr w).filter nbP = [] from nbParts_all_space hw]
  rw [List.append_nil]
  rfl

theorem blankSepFind_nil : blankSepFind ([] : Str) = none := rfl

theorem splitBlankAux_flatten : ∀ (fuel : Nat) (t : Str), t.length < fuel →
    ((splitBlankAux fuel t).map nbParts).flatten = nbParts t := by
  intro fuel
  induction fuel with
  | zero => intro t h; omega
  | succ fuel ih =>
    intro t ht
    rw [show splitBlankAux (fuel + 1) t =
      (match blankSepFind t with
       | some (p, k) => t.take p :: splitBlankAux fuel (t.drop (p + k))
       | none => [t]) from rfl]
    rcases hb : blankSepFind t with _ | ⟨p, k⟩
    · simp
    · have htne : t ≠ [] := by
        intro hnil
        rw [hnil, blankSepFind_nil] at hb
        cases hb
      have htlen : 1 ≤ t.length := by
        cases t with
        | nil => exact absurd rfl htne
        | cons a b => simp
      obtain ⟨w, _, _, hk⟩ := blankSepFind_decomp hb
      have hdlen : (t.drop (p + k)).length < fuel := by
        rw [List.length_drop]
        omega
      rw [List.map_cons, List.flatten_cons, ih (t.drop (p + k)) hdlen,
        nbParts_blankSep hb]

theorem splitBlank_flatten (t : Str) : ((splitBlank t).map nbParts).flatten = nbParts t :=
  splitBlankAux_flatten (t.length + 1) t (by omega)

theorem flatten_head_piece : ∀ (ls : List (List α)), ls.flatten ≠ [] →
    ∃ l ∈ ls, l ≠ [] ∧ l.head? = ls.flatten.head? := by
  intro ls
  induction ls with
  | nil => intro h; exact absurd rfl h
  | cons a ls ih =>
    intro h
    cases a with
    | nil =>
      rw [List.flatten_cons, List.nil_append] at h ⊢
      obtain ⟨l, hl, hne, hh⟩ := ih h
      exact ⟨l, List.mem_cons_of_mem _ hl, hne, hh⟩
    | cons x xs =>
      refine ⟨x :: xs, List.mem_cons_self _ _, by simp, ?_⟩
      rw [List.flatten_cons]
      simp

/-! ## Experience-level consequences of the line structure -/

theorem expChunkLines_eq (c : Str) :
    expChunkLines c = (nbLines c).map (pyStripChars expMarks) := rfl

theorem chunkBody_role (chunk l0 : Str) (lrest : List Str) :
    (chunkBody chunk l0 lrest).role = l0 ∨
    (chunkBody chunk l0 lrest).role =
      pyStripWs ((splitSep roleDashes false l0).headD []) := by
  rw [chunkBody.eq_def]
  rcases hat : atSearch chunk with _ | g
  · by_cases hmem : '-' ∈ l0 ∨ '|' ∈ l0
    · rw [if_pos hmem]
      by_cases hlen : 1 < (splitSep roleDashes false l0).length
      · rw [if_pos hlen]
        right
        rfl
      · rw [if_neg hlen]
        left
        rfl
    · rw [if_neg hmem]
      left
      rfl
  · left
    rfl

theorem chunkEntry_eq_some {c l0 : Str} {lrest : List Str}
    (h : expChunkLines c = l0 :: lrest) :
    chunkEntry c = some (chunkBody c l0 lrest) := by
  rw [show chunkEntry c =
    (match expChunkLines c with
     | [] => none
     | l0 :: lrest => some (chunkBody c l0 lrest)) from rfl, h]

theorem chunkEntry_eq_none {c : Str} (h : expChunkLines c = []) :
    chunkEntry c = none := by
  rw [show chunkEntry c =
    (match expChunkLines c with
     | [] => none
     | l0 :: lrest => some (chunkBody c l0 lrest)) from rfl, h]

theorem chunkEntry_isSome (c : Str) :
    (chunkEntry c).isSome = !(nbLines c).isEmpty := by
  rcases hl : nbLines c with _ | ⟨x, xs⟩
  · rw [chunkEntry_eq_none (by rw [expChunkLines_eq, hl]; rfl)]
    rfl
  · rw [chunkEntry_eq_some (by rw [expChunkLines_eq, hl]; rfl)]
    rfl

theorem nbLines_chunk_decomp {t : Str} (h : nbLines t ≠ []) :
    ∃ c ∈ splitBlank t, nbLines c ≠ [] ∧ (nbLines c).head? = (nbLines t).head? := by
  have hfl : ((splitBlank t).map nbParts).flatten ≠ [] := by
    rw [splitBlank_flatten, ← nbLines_eq_nbParts]
    exact h
  obtain ⟨piece, hpm, hpne, hph⟩ := flatten_head_piece _ hfl
  obtain ⟨c, hcm, hcp⟩ := List.mem_map.mp hpm
  refine ⟨c, hcm, ?_, ?_⟩
  · rw [nbLines_eq_nbParts, hcp]
    exact hpne
  · rw [nbLines_eq_nbParts, hcp, hph, splitBlank_flatten, ← nbLines_eq_nbParts]

theorem filterMap_length_eq (f : α → Option β) : ∀ l : List α,
    (l.filterMap f).length = (l.filter (fun a => (f a).isSome)).length := by
  intro l
  induction l with
  | nil => rfl
  | cons a l ih =>
    rw [List.filterMap_cons, List.filter_cons]
    rcases ha : f a with _ | b
    · simpa [ha] using ih
    · simpa [ha] using ih

theorem extract_experience_eq (t : Str) :
    extract_experience t =
      (splitBlank ((sectionSearch expSyns expTerms t).getD t)).filterMap chunkEntry := rfl

theorem filterMap_chunk_ne_nil {block : Str} (h : nbLines block ≠ []) :
    (splitBlank block).filterMap chunkEntry ≠ [] := by
  obtain ⟨c, hcm, hcne, _⟩ := nbLines_chunk_decomp h
  rcases hcl : expChunkLines c with _ | ⟨l0, lrest⟩
  · rw [expChunkLines_eq] at hcl
    exact absurd (List.map_eq_nil_iff.mp hcl) hcne
  · exact List.ne_nil_of_mem (List.mem_filterMap.mpr ⟨c, hcm, chunkEntry_eq_some hcl⟩)

theorem nonspace_of_lowEq {s0 c : Char} (h0 : pyIsSpace s0.toLower = false)
    (hle : lowEq s0 c = true) : pyIsSpace c = false := by
  by_contra hc
  simp only [Bool.not_eq_false] at hc
  have h1 : c.toLower = c := pyIsSpace_toLower_self hc
  have h2 : s0.toLower = c := by
    have := (decide_eq_true_eq.mp hle)
    rw [this, h1]
  rw [h2, hc] at h0
  cases h0

theorem nbLines_section_block {t b : Str}
    (hsec : sectionSearch expSyns expTerms t = some b) : nbLines b ≠ [] := by
  obtain ⟨s0, c, cs, hsyn, hb, hle⟩ :=
    @sectionSearchAux_some_head expSyns expTerms (by decide) t b hsec
  have hall : ∀ syn ∈ expSyns, pyIsSpace ((syn.headD 'x').toLower) = false := by decide
  have h0 : pyIsSpace s0.toLower = false := by
    obtain ⟨ss, hmem⟩ := hsyn
    simpa using hall _ hmem
  have hcns : pyIsSpace c = false := nonspace_of_lowEq h0 hle
  rw [hb, nbLines_eq_nbParts]
  exact nbParts_cons_nonspace hcns cs

/-- Claim C9, amended: a text with a non-blank line yields a non-empty result;
one entry per chunk with a non-blank line; with no experience header synonym
matched, some entry's role is the first non-blank line of the text (markers
stripped), or the trimmed part of that line before its first hyphen/pipe when
the company was split out of it. -/
theorem claim_C9_amended (t : Str) (h : nbLines t ≠ []) :
    extract_experience t ≠ [] ∧
    (extract_experience t).length =
      ((splitBlank ((sectionSearch expSyns expTerms t).getD t)).filter
        (fun c => !(nbLines c).isEmpty)).length ∧
    (sectionSearch expSyns expTerms t = none →
      ∃ e ∈ extract_experience t,
        e.role = pyStripChars expMarks ((nbLines t).headD []) ∨
        e.role = pyStripWs ((splitSep roleDashes false
          (pyStripChars expMarks ((nbLines t).headD []))).headD [])) := by
  refine ⟨?_, ?_, ?_⟩
  · rw [extract_experience_eq]
    rcases hsec : sectionSearch expSyns expTerms t with _ | b
    · rw [show (Option.getD (none : Option Str) t) = t from rfl]
      exact filterMap_chunk_ne_nil h
    · rw [show (Option.getD (some b) t) = b from rfl]
      exact filterMap_chunk_ne_nil (nbLines_section_block hsec)
  · rw [extract_experience_eq, filterMap_length_eq]
    congr 1
    apply List.filter_congr
    intro c _
    exact chunkEntry_isSome c
  · intro hsec
    have hblock : (sectionSearch expSyns expTerms t).getD t = t := by rw [hsec]; rfl
    obtain ⟨c, hcm, hcne, hch⟩ := nbLines_chunk_decomp h
    rcases hcl2 : nbLines c with _ | ⟨x, xs⟩
    · exact absurd hcl2 hcne
    · have hcl : expChunkLines c =
          pyStripChars expMarks x :: xs.map (pyStripChars expMarks) := by
        rw [expChunkLines_eq, hcl2]
        rfl
      have hx : x = (nbLines t).headD [] := by
        rw [hcl2] at hch
        rcases hlt : nbLines t with _ | ⟨y, ys⟩
        · exact absurd hlt h
        · rw [hlt] at hch
          simp only [List.head?_cons, Option.some_inj] at hch
          rw [hch]
          rfl
      refine ⟨chunkBody c (pyStripChars expMarks x) (xs.map (pyStripChars expMarks)), ?_, ?_⟩
      · rw [extract_experience_eq, hblock]
        exact List.mem_filterMap.mpr ⟨c, hcm, chunkEntry_eq_some hcl⟩
      · rw [← hx]
        exact chunkBody_role c (pyStripChars expMarks x) (xs.map (pyStripChars expMarks))

/-! ## Claims C9 (witness and counterexample), C4 and C5 -/

/-- Claim C9 witness: the amended theorem applied at a concrete two-chunk
text. -/
theorem claim_C9_witness :
    nbLines ("Task alpha\n\nTask beta".toList) ≠ [] ∧
    (extract_experience ("Task alpha\n\nTask beta".toList) ≠ [] ∧
     (extract_experience ("Task alpha\n\nTask beta".toList)).length =
       ((splitBlank ((sectionSearch expSyns expTerms
           ("Task alpha\n\nTask beta".toList)).getD
           ("Task alpha\n\nTask beta".toList))).filter
         (fun c => !(nbLines c).isEmpty)).length ∧
     (sectionSearch expSyns expTerms ("Task alpha\n\nTask beta".toList) = none →
       ∃ e ∈ extract_experience ("Task alpha\n\nTask beta".toList),
         e.role = pyStripChars expMarks
           ((nbLines ("Task alpha\n\nTask beta".toList)).headD []) ∨
         e.role = pyStripWs ((splitSep roleDashes false
           (pyStripChars expMarks
             ((nbLines ("Task alpha\n\nTask beta".toList)).headD []))).headD []))) :=
  ⟨by decide, claim_C9_amended ("Task alpha\n\nTask beta".toList) (by decide)⟩

/-- Claim C9 counterexample: on `"Foo - Bar"` (no experience section) the only
entry's role is `"Foo"`, not the first non-blank line `"Foo - Bar"` (markers
stripped) the claim asserts: the hyphen split reassigns the role. -/
theorem claim_C9_counterexample :
    (extract_experience ("Foo - Bar".toList)).map (fun e => e.role) = ["Foo".toList] ∧
    pyStripChars expMarks ((nbLines ("Foo - Bar".toList)).headD []) = "Foo - Bar".toList ∧
    ¬ ∃ e ∈ extract_experience ("Foo - Bar".toList),
        e.role = pyStripChars expMarks ((nbLines ("Foo - Bar".toList)).headD []) := by
  decide

/-- Claim C4 counterexample: on `"Hello World"` (no header synonym) the code
returns the empty list, not the whole-document scan the claim asserts. -/
theorem claim_C4_counterexample :
    extract_certifications ("Hello World".toList) = [] ∧
    certificationsSpecWholeDoc ("Hello World".toList) = ["Hello World".toList] ∧
    extract_certifications ("Hello World".toList) ≠
      certificationsSpecWholeDoc ("Hello World".toList) := by
  decide

/-- Claim C4, amended: when no certifications header synonym occurs in the
text the section regex cannot match, the block is the empty string (not the
whole document), and the extractor returns the empty list. -/
theorem claim_C4_amended (t : Str) (h : ciSub ("certification".toList) t = false) :
    extract_certifications t = [] := by
  have hnone : sectionSearch certSyns certTerms t = none := by
    apply sectionSearchAux_eq_none
    intro syn hs
    have hs2 : syn = ("certifications".toList) ∨ syn = ("certification".toList) := by
      simpa [certSyns] using hs
    rcases hs2 with rfl | rfl
    · rcases hcs : ciSub ("certifications".toList) t with _ | _
      · rfl
      · have : ciSub ("certification".toList) t = true := by
          have hx : ("certifications".toList : Str) =
              ("certification".toList) ++ ['s'] := by decide
          rw [hx] at hcs
          exact ciSub_of_append hcs
        rw [this] at h
        cases h
    · exact h
  rw [show extract_certifications t =
    (pySplitlines ((sectionSearch certSyns certTerms t).getD [])).filterMap (fun l =>
      let l2 := pyStripChars projMarks l
      if !l2.isEmpty ∧ !ciSub ("certification".toList) l2 then some l2 else none) from rfl,
    hnone]
  rfl

/-- Claim C4 witness for the amended theorem. -/
theorem claim_C4_witness :
    ciSub ("certification".toList) ("Hello World\nAWS course 2020".toList) = false ∧
    extract_certifications ("Hello World\nAWS course 2020".toList) = [] :=
  ⟨by decide, claim_C4_amended ("Hello World\nAWS course 2020".toList) (by decide)⟩

theorem eduFallbackStep_degree (e : EduEntry) (nxt : Str) :
    (eduFallbackStep e nxt).degree = e.degree := by
  unfold eduFallbackStep
  rcases cgpaSearch nxt with _ | g <;>
    (dsimp only [] <;> repeat' split) <;> rfl

theorem mkEduFallback_degree (line : Str) (look : List Str) :
    (mkEduFallback line look).degree = some line := by
  rw [mkEduFallback]
  generalize hstart : ({ degree := some line } : EduEntry) = e0
  have hd : e0.degree = some line := by rw [← hstart]
  clear hstart
  induction look generalizing e0 with
  | nil => exact hd
  | cons nxt look ih =>
    rw [List.foldl_cons]
    exact ih _ ((eduFallbackStep_degree e0 nxt).trans hd)

theorem eduFallbackPass_ne_nil : ∀ {lines : List Str},
    (∃ l ∈ lines, ciSubAny degreeLits l = true) → eduFallbackPass lines ≠ [] := by
  intro lines
  induction lines with
  | nil => intro h; rcases h with ⟨l, hl, _⟩; cases hl
  | cons x rest ih =>
    intro h
    rw [show eduFallbackPass (x :: rest) =
      ((if ciSubAny degreeLits x then [mkEduFallback x (rest.take 3)] else []) ++
        eduFallbackPass rest) from rfl]
    by_cases hx : ciSubAny degreeLits x = true
    · simp [hx]
    · rcases h with ⟨l, hl, hkw⟩
      rcases List.mem_cons.mp hl with rfl | hmem
      · exact absurd hkw hx
      · have : eduFallbackPass rest ≠ [] := ih ⟨l, hmem, hkw⟩
        simp [hx, this]

theorem eduFallbackPass_degree : ∀ {lines : List Str},
    ∀ e ∈ eduFallbackPass lines,
      ∃ l ∈ lines, ciSubAny degreeLits l = true ∧ e.degree = some l := by
  intro lines
  induction lines with
  | nil => intro e he; cases he
  | cons x rest ih =>
    intro e he
    rw [show eduFallbackPass (x :: rest) =
      ((if ciSubAny degreeLits x then [mkEduFallback x (rest.take 3)] else []) ++
        eduFallbackPass rest) from rfl] at he
    rcases List.mem_append.mp he with h1 | h2
    · by_cases hx : ciSubAny degreeLits x = true
      · rw [if_pos hx] at h1
        rcases List.mem_singleton.mp h1 with rfl
        exact ⟨x, List.mem_cons_self x rest, hx, mkEduFallback_degree x (rest.take 3)⟩
      · rw [if_neg hx] at h1
        cases h1
    · obtain ⟨l, hl, hkw, hd⟩ := ih e h2
      exact ⟨l, List.mem_cons_of_mem x hl, hkw, hd⟩

/-- Claim C5, confirmed: a text with no education header synonym and a
degree-keyword line yields at least one entry, and whenever the main pass is
empty every returned (fallback) entry records the whole matching line as its
degree. -/
theorem claim_C5 (t : Str)
    (h1 : ∀ syn ∈ eduSyns, ciSub syn t = false)
    (h2 : ∃ l ∈ nbWsLines t, ciSubAny degreeLits l = true) :
    extract_education t ≠ [] ∧
    (eduFirstPass (nbWsLines t) = [] →
      ∀ e ∈ extract_education t,
        ∃ l ∈ nbWsLines t, ciSubAny degreeLits l = true ∧ e.degree = some l) := by
  have hb : sectionSearch eduSyns eduTerms t = none :=
    sectionSearchAux_eq_none t h1
  have hrw : extract_education t =
      (if (eduFirstPass (nbWsLines t)).isEmpty then eduFallbackPass (nbWsLines t)
       else eduFirstPass (nbWsLines t)) := by
    rw [show extract_education t =
      (if (eduFirstPass (nbWsLines ((sectionSearch eduSyns eduTerms t).getD t))).isEmpty
       then eduFallbackPass (nbWsLines t)
       else eduFirstPass (nbWsLines ((sectionSearch eduSyns eduTerms t).getD t))) from rfl,
      hb]
    rfl
  constructor
  · rw [hrw]
    by_cases hfp : (eduFirstPass (nbWsLines t)).isEmpty = true
    · rw [if_pos hfp]
      exact eduFallbackPass_ne_nil h2
    · rw [if_neg hfp]
      exact fun hnil => hfp (by rw [hnil]; rfl)
  · intro hempty e he
    rw [hrw, if_pos (by rw [hempty]; rfl)] at he
    exact eduFallbackPass_degree e he

/-- Claim C5 witness at a concrete headerless text. -/
theorem claim_C5_witness :
    (∀ syn ∈ eduSyns, ciSub syn ("B.Tech in CS\nIIT Delhi".toList) = false) ∧
    (∃ l ∈ nbWsLines ("B.Tech in CS\nIIT Delhi".toList), ciSubAny degreeLits l = true) ∧
    (extract_education ("B.Tech in CS\nIIT Delhi".toList) ≠ [] ∧
     (eduFirstPass (nbWsLines ("B.Tech in CS\nIIT Delhi".toList)) = [] →
       ∀ e ∈ extract_education ("B.Tech in CS\nIIT Delhi".toList),
         ∃ l ∈ nbWsLines ("B.Tech in CS\nIIT Delhi".toList),
           ciSubAny degreeLits l = true ∧ e.degree = some l)) :=
  ⟨by decide, by decide,
    claim_C5 ("B.Tech in CS\nIIT Delhi".toList) (by decide) (by decide)⟩

/-! ## Claim C3: ordering of skill and technology lists -/

instance : IsTotal Str LexRel := by
  constructor
  intro a
  induction a with
  | nil => intro b; left; rfl
  | cons x xs ih =>
    intro b
    cases b with
    | nil => right; rfl
    | cons y ys =>
      by_cases hxy : x = y
      · subst hxy
        rcases ih ys with h | h
        · left
          rw [LexRel, show lexLe (x :: xs) (x :: ys) = lexLe xs ys from by
            rw [lexLe]; simp]
          exact h
        · right
          rw [LexRel, show lexLe (x :: ys) (x :: xs) = lexLe ys xs from by
            rw [lexLe]; simp]
          exact h
      · rcases lt_or_gt_of_ne (fun hh => hxy hh) with hlt | hgt
        · left
          rw [LexRel, show lexLe (x :: xs) (y :: ys) = decide (x < y) from by
            rw [lexLe]; simp [hxy]]
          simpa using hlt
        · right
          rw [LexRel, show lexLe (y :: ys) (x :: xs) = decide (y < x) from by
            rw [lexLe]; simp [show y ≠ x from fun hh => hxy hh.symm]]
          simpa using hgt

instance : IsTrans Str LexRel := by
  constructor
  intro a
  induction a with
  | nil => intro b c _ _; rfl
  | cons x xs ih =>
    intro b c hab hbc
    cases b with
    | nil => exact absurd hab (by rw [LexRel, lexLe]; simp)
    | cons y ys =>
      cases c with
      | nil => exact absurd hbc (by rw [LexRel, lexLe]; simp)
      | cons z zs =>
        rw [LexRel, show lexLe (x :: xs) (y :: ys) =
          (if x = y then lexLe xs ys else decide (x < y)) from rfl] at hab
        rw [LexRel, show lexLe (y :: ys) (z :: zs) =
          (if y = z then lexLe ys zs else decide (y < z)) from rfl] at hbc
        rw [LexRel, show lexLe (x :: xs) (z :: zs) =
          (if x = z then lexLe xs zs else decide (x < z)) from rfl]
        by_cases hxy : x = y
        · subst hxy
          rw [if_pos rfl] at hab
          by_cases hyz : x = z
          · subst hyz
            rw [if_pos rfl] at hbc
            rw [if_pos rfl]
            exact ih ys zs hab hbc
          · rw [if_neg hyz] at hbc
            rw [if_neg hyz]
            exact hbc
        · rw [if_neg hxy] at hab
          by_cases hyz : y = z
          · subst hyz
            rw [if_neg hxy]
            exact hab
          · rw [if_neg hyz] at hbc
            have hlt : x < z :=
              lt_trans (by simpa using hab) (by simpa using hbc)
            by_cases hxz : x = z
            · exact absurd hxz (ne_of_lt hlt)
            · rw [if_neg hxz]
              simpa using hlt

theorem dedupFSAux_not_seen : ∀ (l seen : List Str) (x : Str),
    x ∈ dedupFSAux seen l → x ∉ seen := by
  intro l
  induction l with
  | nil => intro seen x hx; cases hx
  | cons a l ih =>
    intro seen x hx
    rw [show dedupFSAux seen (a :: l) =
      (if a ∈ seen then dedupFSAux seen l else a :: dedupFSAux (a :: seen) l) from rfl] at hx
    by_cases ha : a ∈ seen
    · rw [if_pos ha] at hx
      exact ih seen x hx
    · rw [if_neg ha] at hx
      rcases List.mem_cons.mp hx with rfl | hx2
      · exact ha
      · intro hxs
        exact ih (a :: seen) x hx2 (List.mem_cons_of_mem a hxs)

theorem dedupFSAux_nodup : ∀ (l seen : List Str), (dedupFSAux seen l).Nodup := by
  intro l
  induction l with
  | nil => intro seen; exact List.nodup_nil
  | cons a l ih =>
    intro seen
    rw [show dedupFSAux seen (a :: l) =
      (if a ∈ seen then dedupFSAux seen l else a :: dedupFSAux (a :: seen) l) from rfl]
    by_cases ha : a ∈ seen
    · rw [if_pos ha]
      exact ih seen
    · rw [if_neg ha]
      refine List.nodup_cons.mpr ⟨?_, ih (a :: seen)⟩
      intro hmem
      exact dedupFSAux_not_seen l (a :: seen) a hmem (List.mem_cons_self a seen)

theorem dedupFS_nodup (l : List Str) : (dedupFS l).Nodup := dedupFSAux_nodup l []

theorem skillListShape_sorted {v : List Str} (h : skillListShape v) :
    List.Sorted LexRel v ∧ v.Nodup := by
  obtain ⟨raw, rfl⟩ := h
  refine ⟨List.sorted_insertionSort LexRel _, ?_⟩
  exact (List.perm_insertionSort LexRel _).nodup_iff.mpr (dedupFS_nodup _)

theorem dictSet_values {P : List Str → Prop} :
    ∀ {d : List (Str × List Str)} {k : Str} {v : List Str},
    (∀ kv ∈ d, P kv.2) → P v → ∀ kv ∈ dictSet d k v, P kv.2 := by
  intro d
  induction d with
  | nil =>
    intro k v _ hv kv hkv
    rcases List.mem_singleton.mp hkv with rfl
    exact hv
  | cons a d ih =>
    intro k v hd hv kv hkv
    rw [show dictSet (a :: d) k v =
      (if a.1 = k then (a.1, v) :: d else a :: dictSet d k v) from by
        rw [dictSet]] at hkv
    by_cases ha : a.1 = k
    · rw [if_pos ha] at hkv
      rcases List.mem_cons.mp hkv with rfl | h2
      · exact hv
      · exact hd kv (List.mem_cons_of_mem a h2)
    · rw [if_neg ha] at hkv
      rcases List.mem_cons.mp hkv with rfl | h2
      · exact hd kv (List.mem_cons_self kv d)
      · exact ih (fun x hx => hd x (List.mem_cons_of_mem a hx)) hv kv h2

theorem skillsB1Step_values {d : List (Str × List Str)} {line : Str}
    (hd : ∀ kv ∈ d, skillListShape kv.2) :
    ∀ kv ∈ skillsB1Step d line, skillListShape kv.2 := by
  rw [skillsB1Step]
  split
  · split
    · split
      · exact dictSet_values hd ⟨_, rfl⟩
      · exact hd
    · exact hd
  · exact hd

theorem extract_skills_b1_values (block : Str) :
    ∀ kv ∈ extract_skills_b1 block, skillListShape kv.2 := by
  rw [extract_skills_b1]
  generalize (pySplitlines block) = lines
  have hgen : ∀ (ls : List Str) (d : List (Str × List Str)),
      (∀ kv ∈ d, skillListShape kv.2) → ∀ kv ∈ ls.foldl skillsB1Step d, skillListShape kv.2 := by
    intro ls
    induction ls with
    | nil => intro d hd; exact hd
    | cons l ls ih =>
      intro d hd
      rw [List.foldl_cons]
      exact ih _ (skillsB1Step_values hd)
  exact hgen lines [] (fun kv hkv => absurd hkv (List.not_mem_nil kv))

theorem extract_skills_b3_values (t : Str) :
    ∀ kv ∈ extract_skills_b3 t, skillListShape kv.2 := by
  rw [extract_skills_b3]
  split
  · intro kv hkv; cases hkv
  · intro kv hkv
    rcases List.mem_singleton.mp hkv with rfl
    exact ⟨_, rfl⟩

theorem extract_skills_values (t : Str) :
    ∀ kv ∈ extract_skills t, skillListShape kv.2 := by
  rw [extract_skills]
  split
  · exact extract_skills_b1_values _
  · split
    · split
      · intro kv hkv
        rcases List.mem_singleton.mp hkv with rfl
        exact ⟨_, rfl⟩
      · exact extract_skills_b3_values t
    · exact extract_skills_b3_values t

theorem extract_projects_tech (t : Str) :
    ∀ p ∈ extract_projects t, p.tech.Nodup ∧
      ∃ raw : List Str, p.tech = dedupFS (raw.map pyTitle) := by
  intro p hp
  rw [show extract_projects t =
    (splitBlank ((sectionSearch projSyns projTerms t).getD t)).filterMap projEntry
    from rfl] at hp
  obtain ⟨chunk, _, hpe⟩ := List.mem_filterMap.mp hp
  unfold projEntry at hpe
  rcases hpl : projChunkLines chunk with _ | ⟨l0, lrest⟩
  · rw [hpl] at hpe
    cases hpe
  · rw [hpl] at hpe
    dsimp only at hpe
    injection hpe with hpe2
    subst hpe2
    exact ⟨dedupFS_nodup _, ⟨reFindAll techMatchAt chunk, rfl⟩⟩

/-- Claim C3, amended: every skills list is title-cased, deduplicated and
stored sorted ascending by code point (not in first-seen order); every
projects tech list is title-cased and deduplicated preserving first-seen
order. -/
theorem claim_C3_amended (t : Str) :
    (∀ kv ∈ extract_skills t, List.Sorted LexRel kv.2 ∧ kv.2.Nodup ∧
      ∃ raw : List Str, kv.2 = pySorted (dedupFS (raw.map pyTitle))) ∧
    (∀ p ∈ extract_projects t, p.tech.Nodup ∧
      ∃ raw : List Str, p.tech = dedupFS (raw.map pyTitle)) := by
  constructor
  · intro kv hkv
    have hs := extract_skills_values t kv hkv
    obtain ⟨hsort, hnd⟩ := skillListShape_sorted hs
    exact ⟨hsort, hnd, hs⟩
  · exact extract_projects_tech t

/-- Claim C3 counterexample: the category line `"Skills: Zebra, Apple"`
extracts the names in first-seen order Zebra, Apple, but the stored list is
the sorted `["Apple", "Zebra"]`, not the first-seen order the claim
asserts. -/
theorem claim_C3_counterexample :
    extract_skills ("Skills: Zebra, Apple\n".toList) =
      [(("Skills".toList), ["Apple".toList, "Zebra".toList])] ∧
    skillsB1Items ("Skills: Zebra, Apple".toList) = ["Zebra".toList, "Apple".toList] ∧
    dedupFS ((["Zebra".toList, "Apple".toList]).map pyTitle) =
      ["Zebra".toList, "Apple".toList] ∧
    (["Apple".toList, "Zebra".toList] : List Str) ≠ ["Zebra".toList, "Apple".toList] := by
  decide

/-! ## Claims C2, C6, C8, C1, C7, C10 -/

/-- Claim C2 counterexample: on the spec's example chunk the code keeps the
whole first line as the role (the at/@ branch never truncates it) and the
hyphen of the date range is picked up as a bullet marker, so the
responsibilities gain a leading `"01/2022"`. -/
theorem claim_C2_counterexample :
    extract_experience
      ("Software Engineer at Acme Corp\n01/2020 - 01/2022\n• Built features\n• Fixed bugs".toList) =
      [{ role := "Software Engineer at Acme Corp".toList,
         company := some ("Acme Corp".toList),
         start_date := some ("01/2020".toList),
         end_date := some ("01/2022".toList),
         location := none,
         responsibilities :=
           ["01/2022".toList, "Built features".toList, "Fixed bugs".toList] }] ∧
    ("Software Engineer at Acme Corp".toList : Str) ≠ "Software Engineer".toList ∧
    (["01/2022".toList, "Built features".toList, "Fixed bugs".toList] : List Str) ≠
      ["Built features".toList, "Fixed bugs".toList] := by
  decide

/-- Claim C2, amended: the example chunk yields role `"Software Engineer at
Acme Corp"`, company `"Acme Corp"`, the two dates, no location, and
responsibilities `["01/2022", "Built features", "Fixed bugs"]`. -/
theorem claim_C2_amended :
    extract_experience
      ("Software Engineer at Acme Corp\n01/2020 - 01/2022\n• Built features\n• Fixed bugs".toList) =
      [{ role := "Software Engineer at Acme Corp".toList,
         company := some ("Acme Corp".toList),
         start_date := some ("01/2020".toList),
         end_date := some ("01/2022".toList),
         location := none,
         responsibilities :=
           ["01/2022".toList, "Built features".toList, "Fixed bugs".toList] }] := by
  decide

/-- Claim C6, confirmed: the CGPA line inside an education block yields
degree `"B.Tech"`, field `"Computer Science"`, cgpa `"8.5/10"`, and the extra
part with the matched CGPA substring stripped (leaving the empty string). -/
theorem claim_C6 :
    extract_education ("Education\nB.Tech - Computer Science - CGPA: 8.5/10\n".toList) =
      [{ degree := some ("B.Tech".toList), field := some ("Computer Science".toList),
         extra := some [], cgpa := some ("8.5/10".toList),
         start_date := none, end_date := none, institution := none }] := by
  decide

/-- Claim C8, confirmed: on the empty string every field of the profile is at
its empty default (name/email/phone present and null, all containers
empty). -/
theorem claim_C8 : ∀ ner : NerModel, parse_resume ner [] =
    PyVal.pydict
      [(("personal_info".toList), PyVal.pydict
          [(("name".toList), PyVal.pynone), (("email".toList), PyVal.pynone),
           (("phone".toList), PyVal.pynone)]),
       (("education".toList), PyVal.pylist []),
       (("experience".toList), PyVal.pylist []),
       (("projects".toList), PyVal.pylist []),
       (("skills".toList), PyVal.pydict []),
       (("certifications".toList), PyVal.pylist [])] :=
  fun _ => rfl

/-- Claim C1, confirmed: for every model and text the profile is a dict with
exactly the six keys in order, each value of its declared container
constructor (so never absent and never null), and the embedded orchestrator
is total — it never raises. -/
theorem claim_C1 : ∀ (ner : NerModel) (t : Str), ∃ a b c d e f,
    parse_resume ner t = PyVal.pydict
      [(("personal_info".toList), PyVal.pydict a),
       (("education".toList), PyVal.pylist b),
       (("experience".toList), PyVal.pylist c),
       (("projects".toList), PyVal.pylist d),
       (("skills".toList), PyVal.pydict e),
       (("certifications".toList), PyVal.pylist f)] ∧
    a.map Prod.fst = [("name".toList), ("email".toList), ("phone".toList)] :=
  fun _ _ => ⟨_, _, _, _, _, _, rfl, rfl⟩

/-- Claim C7, confirmed: the embedded parse is a pure function of the text
(the entity-recognition model held fixed), so two invocations on identical
text yield structurally identical profiles. -/
theorem claim_C7 (ner : NerModel) (t1 t2 : Str) (h : t1 = t2) :
    parse_resume ner t1 = parse_resume ner t2 := by
  rw [h]

/-- Claim C7 witness at a concrete text. -/
theorem claim_C7_witness :
    ("Jane Doe\njane@example.com".toList : Str) = "Jane Doe\njane@example.com".toList ∧
    parse_resume nerStub ("Jane Doe\njane@example.com".toList) =
      parse_resume nerStub ("Jane Doe\njane@example.com".toList) :=
  ⟨rfl, claim_C7 nerStub ("Jane Doe\njane@example.com".toList)
    ("Jane Doe\njane@example.com".toList) rfl⟩

/-- Claim C10, confirmed: the orchestrator body always returns through the
first branch (it is `ok` for every model and text, and the outer-except
profile — whose personal_info dict is empty — is never produced), because
each extractor catches its own failures: concretely, when the model fails the
personal-info body errors and its boundary returns the all-None default. -/
theorem claim_C10 :
    (∀ (ner : NerModel) (t : Str), (parse_resume_body ner t).isOk = true ∧
      parse_resume ner t ≠ parse_resume_fallback) ∧
    (extract_personal_info_body failNer ("zzz resume text".toList)).isOk = false ∧
    extract_personal_info failNer ("zzz resume text".toList) =
      { name := none, email := none, phone := none } := by
  refine ⟨fun ner t => ⟨rfl, ?_⟩, by decide, by decide⟩
  intro h
  rw [show parse_resume ner t = PyVal.pydict
    [(("personal_info".toList), piPy (extract_personal_info ner t)),
     (("education".toList), PyVal.pylist ((extract_education t).map eduPy)),
     (("experience".toList), PyVal.pylist ((extract_experience t).map expPy)),
     (("projects".toList), PyVal.pylist ((extract_projects t).map projPy)),
     (("skills".toList), skillsPy (extract_skills t)),
     (("certifications".toList),
      PyVal.pylist ((extract_certifications t).map PyVal.pystr))] from rfl,
    parse_resume_fallback, piPy] at h
  simp at h
